import Mathlib

/-!
# Volume noise generator: shallow embedding and verified properties

The definitions below are translated from `src/include/utility.hpp`,
`src/include/texture.hpp`, `src/include/config.hpp` and `src/src/main.cpp`.

Modelling conventions.

* The program computes on `float`.  The file has two readings of it.
  In the exact reading (`fBm`, `getWorleyNoise`, `unormToByte`, `process`, `getNoise`, ...)
  a finite `float` is an exact rational number: rounding, overflow to infinity and
  denormals are not modelled.  The one place where the program divides by a quantity
  that can be zero (`noiseSum /= amplitudeSum` in `fBm`) produces an `FVal`, which adds
  the IEEE special values `+inf`, `-inf` and `NaN` to the finite rationals; the channel
  evaluator `getNoise` computes with `FVal`.
  In the binary32 reading (`fBm32`, `getWorleyNoise32`, `unormToByte32`,
  `voxelPosition32`, `process32`, all built on `round32`) every operation is the IEEE 754
  binary32 operation: the exact result rounded to the nearest number with a 24-bit
  significand, ties to even, with gradual underflow, overflow to an infinity, and NaN.
  Each operation of the source is rounded on its own (no fused multiply-add), and the
  sign of zero is not modelled.
  The theorems about rounding, about overflow and about the conversions between
  integers and `float` are stated in the binary32 reading.
* `uint` / `uint32_t` values are natural numbers reduced modulo `2^32`.
* `glm::distance` is `sqrt` of a dot product; in the exact reading the square root is a
  parameter `sqrtF : ℚ → ℚ` of the functions that use it, so that every definition stays
  executable; in the binary32 reading it is the correctly rounded square root.
* The other library functions are parameters too: `perlin` (`glm::perlin`), `powF`
  (`glm::pow`), `stoi` and `stof` (`std::stoi`, `std::stof`, `none` when they throw),
  and `blueNoiseTextures` (the textures loaded from image files).
* An exception is a value of `Except`; a file is the list of its lines.
-/

namespace VolumeNoise

/-! ## `glm::vec3` -/

/-- Three-component vector (`glm::vec3`). -/
structure Vec3 where
  x : ℚ
  y : ℚ
  z : ℚ
deriving DecidableEq

namespace Vec3

/-- Componentwise sum (`a + b`). -/
def add (a b : Vec3) : Vec3 := ⟨a.x + b.x, a.y + b.y, a.z + b.z⟩

/-- Componentwise difference (`a - b`). -/
def sub (a b : Vec3) : Vec3 := ⟨a.x - b.x, a.y - b.y, a.z - b.z⟩

/-- Vector times scalar (`v * s`). -/
def scale (v : Vec3) (s : ℚ) : Vec3 := ⟨v.x * s, v.y * s, v.z * s⟩

/-- Vector divided by scalar (`v / s`). -/
def divScalar (v : Vec3) (s : ℚ) : Vec3 := ⟨v.x / s, v.y / s, v.z / s⟩

/-- Componentwise floor (`glm::floor`); the result has integral components. -/
def floor (v : Vec3) : Vec3 := ⟨(⌊v.x⌋ : ℤ), (⌊v.y⌋ : ℤ), (⌊v.z⌋ : ℤ)⟩

/-- Dot product (`glm::dot`). -/
def dot (a b : Vec3) : ℚ := a.x * b.x + a.y * b.y + a.z * b.z

end Vec3

/-- Euclidean distance `glm::distance(p0, p1) = length(p1 - p0) = sqrt(dot(d, d))`. -/
def glmDistance (sqrtF : ℚ → ℚ) (p0 p1 : Vec3) : ℚ :=
  sqrtF (Vec3.dot (Vec3.sub p1 p0) (Vec3.sub p1 p0))

/-! ## `utility.hpp` -/

/-- Largest `uint32_t` (`uint32Max`). -/
def uint32Max : ℕ := 4294967295

/-- Scalar `glm::min(x, y) = (y < x) ? y : x`. -/
def glmMin (x y : ℚ) : ℚ := if y < x then y else x

/-- Scalar `glm::max(x, y) = (x < y) ? y : x`. -/
def glmMax (x y : ℚ) : ℚ := if x < y then y else x

/-- Scalar `glm::clamp(x, lo, hi) = min(max(x, lo), hi)`. -/
def clamp (x lo hi : ℚ) : ℚ := glmMin (glmMax x lo) hi

/-- Scalar `glm::mod(x, y) = x - y * floor(x / y)`. -/
def glmMod (x y : ℚ) : ℚ := x - y * (⌊x / y⌋ : ℤ)

/-- Translation of `wrapMax`. -/
def wrapMax (x max : ℚ) : ℚ := glmMod (max + glmMod x max) max

/-- Translation of `wrap`. -/
def wrap (x min max : ℚ) : ℚ := min + wrapMax (x - min) (max - min)

/-- Translation of `lowbias32`: every line is an operation on a 32-bit unsigned value. -/
def lowbias32 (x : ℕ) : ℕ :=
  let x := x % 2 ^ 32
  let x := x ^^^ (x >>> 16)
  let x := (x * 0x7feb352d) % 2 ^ 32
  let x := x ^^^ (x >>> 15)
  let x := (x * 0x846ca68b) % 2 ^ 32
  let x := x ^^^ (x >>> 16)
  x

/-! ## Float values with the IEEE special cases -/

/-- Result of a float operation that may leave the finite numbers. -/
inductive FVal where
  | fin (q : ℚ)
  | posInf
  | negInf
  | nan
deriving DecidableEq

namespace FVal

/-- Float comparison `a < b`; every comparison with NaN is false. -/
def lt : FVal → FVal → Bool
  | fin a, fin b => decide (a < b)
  | fin _, posInf => true
  | negInf, fin _ => true
  | negInf, posInf => true
  | _, _ => false

/-- Overload `glm::max(x, y) = (x < y) ? y : x` on float values. -/
def max (x y : FVal) : FVal := if lt x y then y else x

/-- Overload `glm::min(x, y) = (y < x) ? y : x` on float values. -/
def min (x y : FVal) : FVal := if lt y x then y else x

/-- Overload `glm::clamp(x, lo, hi) = min(max(x, lo), hi)` on float values. -/
def clamp (x lo hi : FVal) : FVal := min (max x lo) hi

/-- Quotient `a / b` of two finite floats: `x / 0` is an infinity of the sign of `x`,
`0 / 0` is NaN. -/
def div (a b : ℚ) : FVal :=
  if b = 0 then (if a = 0 then nan else if 0 < a then posInf else negInf)
  else fin (a / b)

/-- The value is a number of the closed interval `[0, 1]`. -/
def InUnit : FVal → Prop
  | fin q => 0 ≤ q ∧ q ≤ 1
  | _ => False

instance : DecidablePred InUnit := fun v =>
  match v with
  | fin q => inferInstanceAs (Decidable (0 ≤ q ∧ q ≤ 1))
  | posInf => isFalse (fun h => h)
  | negInf => isFalse (fun h => h)
  | nan => isFalse (fun h => h)

end FVal

/-! ## `main.cpp`: fractal summation -/

/-- Local variables of the octave loop of `fBm`. -/
structure FBmState where
  amplitude : ℚ
  noiseSum : ℚ
  amplitudeSum : ℚ
  frequency : ℚ
  seed : ℕ

/-- One iteration of the octave loop of `fBm`. -/
def fBmStep (noiseFunction : ℕ → Vec3 → Vec3 → ℚ) (pos repeat_ : Vec3) (lacunarity persistence : ℚ)
    (st : FBmState) : FBmState :=
  let noise := noiseFunction st.seed (pos.scale st.frequency) (repeat_.scale st.frequency)
  { noiseSum := st.noiseSum + st.amplitude * noise
    amplitudeSum := st.amplitudeSum + st.amplitude
    amplitude := st.amplitude * persistence
    frequency := st.frequency * lacunarity
    seed := lowbias32 st.seed }

/-- The octave loop of `fBm`, run for `n` iterations. -/
def fBmLoop (noiseFunction : ℕ → Vec3 → Vec3 → ℚ) (pos repeat_ : Vec3) (lacunarity persistence : ℚ) :
    ℕ → FBmState → FBmState
  | 0, st => st
  | n + 1, st =>
    fBmLoop noiseFunction pos repeat_ lacunarity persistence n
      (fBmStep noiseFunction pos repeat_ lacunarity persistence st)

/-- Translation of `fBm`. -/
def fBm (noiseFunction : ℕ → Vec3 → Vec3 → ℚ) (seed : ℕ) (pos repeat_ : Vec3) (octaveCount : ℤ)
    (frequency lacunarity persistence : ℚ) : FVal :=
  if octaveCount ≤ 0 then FVal.fin 0
  else
    let st := fBmLoop noiseFunction pos repeat_ lacunarity persistence octaveCount.toNat
      { amplitude := 1, noiseSum := 0, amplitudeSum := 0, frequency := frequency, seed := seed }
    FVal.clamp (FVal.div st.noiseSum st.amplitudeSum) (FVal.fin 0) (FVal.fin 1)

/-- Reference definition of fractal summation, following the specification: the
weighted sum of the octaves divided by the sum of the weights, clamped to `[0, 1]`. -/
def fBmReference (primitive : ℕ → Vec3 → Vec3 → ℚ) (seed : ℕ) (pos repeat_ : Vec3) (octaveCount : ℤ)
    (frequency lacunarity persistence : ℚ) : FVal :=
  if octaveCount ≤ 0 then FVal.fin 0
  else
    let n := octaveCount.toNat
    let S := ∑ i in Finset.range n, persistence ^ i *
      primitive (lowbias32^[i] seed) (pos.scale (frequency * lacunarity ^ i))
        (repeat_.scale (frequency * lacunarity ^ i))
    let A := ∑ i in Finset.range n, persistence ^ i
    FVal.clamp (FVal.div S A) (FVal.fin 0) (FVal.fin 1)

/-! ## `main.cpp`: cellular noise -/

/-- Conversion `(uint32_t) v` of a float: truncation toward zero.  The conversion of a
negative value or of one that does not fit is undefined in C++; no theorem below
depends on the value chosen here for them (`0` for negatives, reduction modulo `2^32`). -/
def toUint32 (v : ℚ) : ℕ := ⌊v⌋.toNat % 2 ^ 32

/-- The vector `repeatedNeighbour` of `getWorleyNoise`: the neighbour tile with every
coordinate wrapped.  As in the source, the z coordinate is wrapped with `repeat.y`. -/
def repeatedNeighbour (neighbour repeat_ : Vec3) : Vec3 :=
  { x := wrap neighbour.x 0 repeat_.x
    y := wrap neighbour.y 0 repeat_.y
    z := wrap neighbour.z 0 repeat_.y }

/-- The linear tile index `neighbourIndex` of `getWorleyNoise`. -/
def neighbourIndex (neighbour repeat_ : Vec3) : ℕ :=
  let repeatedNeighbour := repeatedNeighbour neighbour repeat_
  toUint32 ((repeatedNeighbour.z + repeat_.y * repeatedNeighbour.y) * repeat_.x + repeatedNeighbour.x)

/-- The vector `featurePoint` of `getWorleyNoise` for one neighbour tile. -/
def featurePoint (seed : ℕ) (neighbour repeat_ : Vec3) : Vec3 :=
  let xHash := lowbias32 ((seed + neighbourIndex neighbour repeat_) % 2 ^ 32)
  let yHash := lowbias32 xHash
  let zHash := lowbias32 yHash
  neighbour.add (Vec3.divScalar ⟨xHash, yHash, zHash⟩ uint32Max)

/-- The value `glm::distance(pos, featurePoint)` computed in the loop body of
`getWorleyNoise` for the neighbour at offset `(x, y, z)` from `tile`. -/
def neighbourDistance (sqrtF : ℚ → ℚ) (seed : ℕ) (pos repeat_ tile : Vec3) (x y z : ℤ) : ℚ :=
  let neighbour := tile.add ⟨x, y, z⟩
  glmDistance sqrtF pos (featurePoint seed neighbour repeat_)

/-- Translation of `getWorleyNoise`: three nested loops over the offsets `-1, 0, 1`
(z outermost), keeping the running minimum `distance`, which starts at `1.0`. -/
def getWorleyNoise (sqrtF : ℚ → ℚ) (seed : ℕ) (pos repeat_ : Vec3) : ℚ :=
  let tile := pos.floor
  [-1, 0, 1].foldl (fun distance z =>
    [-1, 0, 1].foldl (fun distance y =>
      [-1, 0, 1].foldl (fun distance x =>
        glmMin distance (neighbourDistance sqrtF seed pos repeat_ tile x y z))
        distance)
      distance)
    1

/-- The offsets `(x, y, z)` visited by the three loops of `getWorleyNoise`, in the order
of the visits (x innermost). -/
def neighbourOffsets : List (ℤ × ℤ × ℤ) :=
  [-1, 0, 1].flatMap fun z => [-1, 0, 1].flatMap fun y => [-1, 0, 1].map fun x => (x, y, z)

/-- The squared distance `dot(d, d)` whose square root `neighbourDistance` returns. -/
def neighbourSqDistance (seed : ℕ) (pos repeat_ tile : Vec3) (x y z : ℤ) : ℚ :=
  let neighbour := tile.add ⟨x, y, z⟩
  let d := Vec3.sub (featurePoint seed neighbour repeat_) pos
  Vec3.dot d d

/-- The property of the square root used when a distance is compared with the initial
value `1.0` of the running minimum: on non-negative arguments `sqrt x` lies on the same
side of `1` as `x`. -/
def SqrtOrderOne (sqrtF : ℚ → ℚ) : Prop :=
  ∀ x, 0 ≤ x → (sqrtF x < 1 ↔ x < 1) ∧ (1 < sqrtF x ↔ 1 < x)

/-! ## `texture.hpp` -/

/-- Reduction of an unsigned result to 32 bits. -/
def u32 (n : ℕ) : ℕ := n % 2 ^ 32

/-- Three unsigned components (`glm::uvec3`). -/
structure UVec3 where
  x : ℕ
  y : ℕ
  z : ℕ
deriving DecidableEq

/-- Translation of `VolumeTexture::unormToByte`: clamp, scale by `255.99`, floor and
conversion to `uint8_t`. -/
def unormToByte (v : ℚ) : ℕ :=
  let v := clamp v 0 1
  let v : ℤ := ⌊v * 255.99⌋
  v.toNat % 256

/-- Data members of `VolumeTexture`; `m_data` is the byte buffer. -/
structure VolumeTexture where
  m_size : UVec3
  m_channels : ℕ
  m_data : List ℕ

/-- The constructor of `VolumeTexture`: the buffer has `size.x * size.y * size.z * channels`
zero bytes, the product being computed in 32-bit unsigned arithmetic. -/
def VolumeTexture.new (size : UVec3) (channels : ℕ) : VolumeTexture :=
  { m_size := size
    m_channels := channels
    m_data := List.replicate (u32 (u32 (u32 (size.x * size.y) * size.z) * channels)) 0 }

/-- Translation of `VolumeTexture::getIndex` (32-bit unsigned arithmetic). -/
def VolumeTexture.getIndex (t : VolumeTexture) (pos : UVec3) (channel : ℕ) : ℕ :=
  let pixel := u32 (u32 (u32 (u32 (pos.z * t.m_size.y) + pos.y) * t.m_size.x) + pos.x)
  u32 (u32 (pixel * t.m_channels) + channel)

/-- State of the loops of `VolumeTexture::process`: the counter `index`, the buffer, and
(ghost) the indices written so far, in the order of the writes. -/
structure ProcessState where
  index : ℕ
  data : List ℕ
  written : List ℕ

/-- The statement `m_data[index++] = b`.  A write outside the buffer, or an increment
that overflows the `int` counter, has no defined behaviour: the result is `none`. -/
def storeByte (st : ProcessState) (b : ℕ) : Option ProcessState :=
  if st.index < st.data.length ∧ st.index + 1 < 2 ^ 31 then
    some { index := st.index + 1, data := st.data.set st.index b, written := st.written ++ [st.index] }
  else none

/-- The enumeration `ChannelConfig::Mode`. -/
inductive Mode where
  | Perlin
  | Worley
  | PerlinWorley
  | BlueNoise
  | Curl
deriving DecidableEq, Inhabited

/-- Data members of `ChannelConfig`. -/
structure ChannelConfig where
  mode : Mode
  seed : ℕ
  octaveCount : ℤ
  frequency : ℚ
  lacunarity : ℚ
  persistence : ℚ
  inverted : Bool
  powerCurve : ℚ
  worleyWeight : ℚ
  worleyOctaveCount : ℤ
  worleyFrequency : ℚ
  worleyLacunarity : ℚ
  worleyPersistence : ℚ
  perlinOctaveCount : ℤ
  perlinFrequency : ℚ
  perlinLacunarity : ℚ
  perlinPersistence : ℚ
  blueNoiseRes : ℕ
  zoom : ℤ
deriving Inhabited

/-- Translation of `ChannelConfig::reseed`.  The function-local `static uint randomState`
is passed in and returned; the statement is `seed = randomState = lowbias32(randomState)`. -/
def ChannelConfig.reseed (c : ChannelConfig) (randomState : ℕ) : ChannelConfig × ℕ :=
  let randomState := lowbias32 randomState
  ({ c with seed := randomState }, randomState)

/-- The loop `for (int j = 0; j < n; ++j) m_channelConfigs.push_back(c.reseed())` of
`Config::Config`: returns the channel list and the random state after `n` iterations. -/
def pushReseeded : ℕ → ChannelConfig → ℕ → List ChannelConfig → List ChannelConfig × ℕ
  | 0, _, randomState, configs => (configs, randomState)
  | n + 1, c, randomState, configs =>
    let r := c.reseed randomState
    pushReseeded n r.1 r.2 (configs ++ [r.1])

/-- The inverse permutation of `lowbias32` (not part of the program; used to prove that
`lowbias32` is injective on 32-bit values). -/
def lowbias32_r (x : ℕ) : ℕ :=
  let x := x % 2 ^ 32
  let x := x ^^^ (x >>> 16)
  let x := (x * 0x43021123) % 2 ^ 32
  let x := x ^^^ (x >>> 15) ^^^ (x >>> 30)
  let x := (x * 0x1d69e2a5) % 2 ^ 32
  let x := x ^^^ (x >>> 16)
  x

/-! ## `main.cpp`: gradient noise -/

/-- Four-component vector (`glm::vec4`). -/
structure Vec4 where
  x : ℚ
  y : ℚ
  z : ℚ
  w : ℚ
deriving DecidableEq

/-- Translation of `getPerlinNoise`.  The parameter `perlin` is the library function
`glm::perlin(vec4, vec4)` (periodic 4D gradient noise), which is not part of the
repository. -/
def getPerlinNoise (perlin : Vec4 → Vec4 → ℚ) (seed : ℕ) (pos repeat_ : Vec3) : ℚ :=
  let pos4D : Vec4 := ⟨pos.x, pos.y, pos.z, 0⟩
  let repeat4D : Vec4 :=
    ⟨repeat_.x, repeat_.y, repeat_.z, glmMax (glmMax repeat_.x repeat_.y) repeat_.z⟩
  let pos4D : Vec4 := { pos4D with w := pos4D.w + 1.618033 * ((seed % 1000 : ℕ) : ℚ) }
  perlin pos4D repeat4D * 0.5 + 0.5

/-- An executable square root with 23 fractional bits (the integer square root of
`x * 2^46`, divided by `2^23`), used as an instance of the parameter `sqrtF`. -/
def sqrtFixed (x : ℚ) : ℚ := ((Nat.sqrt ⌊x * 2 ^ 46⌋.toNat : ℕ) : ℚ) / 2 ^ 23

/-! ## Float arithmetic with the IEEE special cases -/

namespace FVal

/-- Negation of a float. -/
def neg : FVal → FVal
  | fin q => fin (-q)
  | posInf => negInf
  | negInf => posInf
  | nan => nan

/-- Float sum: NaN is absorbing, and the sum of opposite infinities is NaN. -/
def add : FVal → FVal → FVal
  | fin a, fin b => fin (a + b)
  | fin _, posInf => posInf
  | fin _, negInf => negInf
  | posInf, fin _ => posInf
  | negInf, fin _ => negInf
  | posInf, posInf => posInf
  | negInf, negInf => negInf
  | posInf, negInf => nan
  | negInf, posInf => nan
  | nan, _ => nan
  | _, nan => nan

/-- Float difference `a - b`. -/
def sub (a b : FVal) : FVal := add a (neg b)

/-- The infinity of the sign of `q` for `q ≠ 0`, NaN for `q = 0` (the product of an
infinity and the finite number `q`). -/
def infTimes (positive : Bool) (q : ℚ) : FVal :=
  if q = 0 then nan else if (0 < q) = positive then posInf else negInf

/-- Float product: NaN is absorbing, and zero times an infinity is NaN. -/
def mul : FVal → FVal → FVal
  | fin a, fin b => fin (a * b)
  | fin a, posInf => infTimes true a
  | fin a, negInf => infTimes false a
  | posInf, fin b => infTimes true b
  | negInf, fin b => infTimes false b
  | posInf, posInf => posInf
  | negInf, negInf => posInf
  | posInf, negInf => negInf
  | negInf, posInf => negInf
  | nan, _ => nan
  | _, nan => nan

/-- Float quotient `a / b` of two floats (`FVal.div` is its restriction to finite
operands): NaN is absorbing, a finite number over an infinity is zero, and the quotient
of two infinities is NaN. -/
def quot : FVal → FVal → FVal
  | fin a, fin b => div a b
  | fin _, posInf => fin 0
  | fin _, negInf => fin 0
  | posInf, fin b => if 0 ≤ b then posInf else negInf
  | negInf, fin b => if 0 ≤ b then negInf else posInf
  | posInf, posInf => nan
  | negInf, negInf => nan
  | posInf, negInf => nan
  | negInf, posInf => nan
  | nan, _ => nan
  | _, nan => nan

end FVal

/-- Translation of `linearStep` of `utility.hpp`, on float values. -/
def linearStep (low high x : FVal) : FVal :=
  FVal.clamp (FVal.quot (FVal.sub x low) (FVal.sub high low)) (FVal.fin 0) (FVal.fin 1)

/-! ## `main.cpp`: curl noise, blue noise and the channel evaluator -/

/-- Translation of `getPerlinNoiseTriplet`: the seed is re-hashed before the second and
the third evaluation. -/
def getPerlinNoiseTriplet (perlin : Vec4 → Vec4 → ℚ) (seed : ℕ) (pos repeat_ : Vec3) : Vec3 :=
  let x := getPerlinNoise perlin seed pos repeat_
  let seed := lowbias32 seed
  let y := getPerlinNoise perlin seed pos repeat_
  let seed := lowbias32 seed
  let z := getPerlinNoise perlin seed pos repeat_
  ⟨x, y, z⟩

/-- Translation of `getCurlNoise`: central differences with step `h = 1e-3`. -/
def getCurlNoise (perlin : Vec4 → Vec4 → ℚ) (sqrtF : ℚ → ℚ) (seed : ℕ) (pos repeat_ : Vec3) :
    Vec3 :=
  let h : ℚ := 1e-3
  let dFdx := Vec3.divScalar
    (Vec3.sub (getPerlinNoiseTriplet perlin seed (pos.add ⟨h, 0, 0⟩) repeat_)
      (getPerlinNoiseTriplet perlin seed (pos.sub ⟨h, 0, 0⟩) repeat_)) (2 * h)
  let dFdy := Vec3.divScalar
    (Vec3.sub (getPerlinNoiseTriplet perlin seed (pos.add ⟨0, h, 0⟩) repeat_)
      (getPerlinNoiseTriplet perlin seed (pos.sub ⟨0, h, 0⟩) repeat_)) (2 * h)
  let dFdz := Vec3.divScalar
    (Vec3.sub (getPerlinNoiseTriplet perlin seed (pos.add ⟨0, 0, h⟩) repeat_)
      (getPerlinNoiseTriplet perlin seed (pos.sub ⟨0, 0, h⟩) repeat_)) (2 * h)
  let velocity : Vec3 :=
    { x := dFdy.z - dFdz.y
      y := dFdz.x - dFdx.z
      z := dFdx.y - dFdy.x }
  let velocity := Vec3.divScalar velocity (sqrtF 2)
  Vec3.add (velocity.scale 0.5) ⟨0.5, 0.5, 0.5⟩

/-- Component `v[i]` of a vector.  An index outside `0..2` is undefined in C++; the
model returns `0` for it. -/
def Vec3.get (v : Vec3) (i : ℤ) : ℚ :=
  if i = 0 then v.x else if i = 1 then v.y else if i = 2 then v.z else 0

/-- Translation of `getBlueNoise`.  The parameter `blueNoiseTextures` is
`BlueNoiseTextures::get`, which loads the texture of a resolution from image files.
A read outside the buffer is undefined in C++; the model returns `0` for it. -/
def getBlueNoise (blueNoiseTextures : ℤ → VolumeTexture) (pos : Vec3) (channel res : ℤ) : ℚ :=
  let pos := pos.scale res
  let index : UVec3 := ⟨toUint32 pos.x, toUint32 pos.y, toUint32 pos.z⟩
  let w := (channel % 2 ^ 32).toNat
  let t := blueNoiseTextures res
  ((t.m_data.getD (t.getIndex index w) 0 : ℕ) : ℚ) / 256

/-- Translation of `getNoise`.  The parameter `powF` is `glm::pow` (the library power
function), `perlin`, `sqrtF` and `blueNoiseTextures` are as above. -/
def getNoise (perlin : Vec4 → Vec4 → ℚ) (sqrtF : ℚ → ℚ) (powF : FVal → ℚ → FVal)
    (blueNoiseTextures : ℤ → VolumeTexture) (channelConfig : ChannelConfig) (pos : Vec3)
    (channel : ℤ) : FVal :=
  let noise : FVal :=
    match channelConfig.mode with
    | Mode.Perlin =>
      fBm (getPerlinNoise perlin) channelConfig.seed pos ⟨1, 1, 1⟩ channelConfig.octaveCount
        channelConfig.frequency channelConfig.lacunarity channelConfig.persistence
    | Mode.Worley =>
      fBm (getWorleyNoise sqrtF) channelConfig.seed pos ⟨1, 1, 1⟩ channelConfig.octaveCount
        channelConfig.frequency channelConfig.lacunarity channelConfig.persistence
    | Mode.PerlinWorley =>
      let perlinNoise := fBm (getPerlinNoise perlin) channelConfig.seed pos ⟨1, 1, 1⟩
        channelConfig.perlinOctaveCount channelConfig.perlinFrequency
        channelConfig.perlinLacunarity channelConfig.perlinPersistence
      let worley := FVal.sub (FVal.fin 1) (fBm (getWorleyNoise sqrtF) channelConfig.seed pos
        ⟨1, 1, 1⟩ channelConfig.worleyOctaveCount channelConfig.worleyFrequency
        channelConfig.worleyLacunarity channelConfig.worleyPersistence)
      linearStep (FVal.mul (FVal.sub (FVal.fin 1) worley) (FVal.fin channelConfig.worleyWeight))
        (FVal.fin 1) perlinNoise
    | Mode.BlueNoise =>
      FVal.fin (getBlueNoise blueNoiseTextures (pos.divScalar channelConfig.zoom) channel
        channelConfig.blueNoiseRes)
    | Mode.Curl =>
      FVal.fin (Vec3.get (getCurlNoise perlin sqrtF channelConfig.seed
        (pos.scale channelConfig.frequency)
        ⟨channelConfig.frequency, channelConfig.frequency, channelConfig.frequency⟩) channel)
  let noise := if channelConfig.inverted then FVal.sub (FVal.fin 1) noise else noise
  powF noise channelConfig.powerCurve

/-- What the theorems assume of the power function: a base in `[0, 1]` with a positive
exponent gives a value in `[0, 1]`, NaN with a positive exponent gives NaN, and the
exponent `1` returns the base. -/
def PowSpec (powF : FVal → ℚ → FVal) : Prop :=
  (∀ x p, 0 ≤ x → x ≤ 1 → 0 < p → FVal.InUnit (powF (FVal.fin x) p)) ∧
    (∀ p, 0 < p → powF FVal.nan p = FVal.nan) ∧
    (∀ x, powF x 1 = x)

/-- A blend channel with `worleyWeight = 0` whose cellular part has two octaves of
weights `1` and `-1`; its seed is a fixed point of `lowbias32`. -/
def blendExample : ChannelConfig :=
  { mode := Mode.PerlinWorley, seed := 1262433416, octaveCount := 0, frequency := 0,
    lacunarity := 0, persistence := 0, inverted := false, powerCurve := 1,
    worleyWeight := 0, worleyOctaveCount := 2, worleyFrequency := 1, worleyLacunarity := 1,
    worleyPersistence := -1, perlinOctaveCount := 1, perlinFrequency := 1,
    perlinLacunarity := 2, perlinPersistence := 1 / 2, blueNoiseRes := 0, zoom := 1 }

/-- The gradient channel with the seed, post-processing and gradient parameters of
`blendExample`. -/
def perlinExample : ChannelConfig :=
  { blendExample with
    mode := Mode.Perlin
    octaveCount := 1
    frequency := 1
    lacunarity := 2
    persistence := 1 / 2 }

/-- A gradient channel with two octaves of weights `1` and `-1` and lacunarity `1`; its
seed is a fixed point of `lowbias32`. -/
def nanExample : ChannelConfig :=
  { blendExample with
    mode := Mode.Perlin
    octaveCount := 2
    frequency := 1
    lacunarity := 1
    persistence := -1 }

/-- A curl channel of frequency `1`. -/
def curlExample : ChannelConfig :=
  { blendExample with
    mode := Mode.Curl
    frequency := 1 }

/-- A gradient-noise function with values in `[-1, 1]`, periodic in every coordinate:
`-1` on the first half of each period along y and `1` on the second half. -/
def stepPerlin (p r : Vec4) : ℚ := if glmMod p.y r.y < r.y / 2 then -1 else 1

/-! ## `config.hpp`: the loader -/

/-- What a failed load throws: `ConfigError` (an alias of `std::runtime_error`) with its
message, or another `std::exception` (`std::invalid_argument` or `std::out_of_range` from
`std::stoi` and `std::stof`). -/
inductive LoadError where
  | configError (msg : String)
  | stdException
deriving DecidableEq

/-- The character `line[0]`; for an empty string it is the terminating `'\0'`. -/
def firstChar (line : String) : Char := line.toList.headD (Char.ofNat 0)

/-- Position `line.find_first_of(c)`, `none` for `npos`. -/
def findFirstOf (line : String) (c : Char) : Option ℕ :=
  let k := (line.toList.takeWhile (fun d => d != c)).length
  if k < line.toList.length then some k else none

/-- Position `line.find_last_of(c)`, `none` for `npos`. -/
def findLastOf (line : String) (c : Char) : Option ℕ :=
  let k := (line.toList.reverse.takeWhile (fun d => d != c)).length
  if k < line.toList.length then some (line.toList.length - 1 - k) else none

/-- Substring `line.substr(pos, count)` for `pos ≤ line.length()`. -/
def substr (line : String) (pos count : ℕ) : String :=
  String.mk ((line.toList.drop pos).take count)

/-- The type `StringMap` (`std::map<std::string, std::string>`) as an association list
with at most one entry for a key. -/
abbrev StringMap := List (String × String)

/-- Whether `map.count(name)` is non-zero. -/
def StringMap.count (map : StringMap) (name : String) : Bool :=
  map.any (fun kv => decide (kv.1 = name))

/-- The value `map.at(name)` (or `map[name]`) of a key that is present. -/
def StringMap.at (map : StringMap) (name : String) : String :=
  ((map.find? (fun kv => decide (kv.1 = name))).map Prod.snd).getD ""

/-- The assignment `map[key] = val`. -/
def StringMap.set (map : StringMap) (key val : String) : StringMap :=
  (key, val) :: map.filter (fun kv => decide (kv.1 ≠ key))

/-- The loop of `parseStringMap`, with `fuel = lineCount - i` iterations left: returns
the map and the index at which the loop stops. -/
def parseStringMapLoop (lines : List String) (lineCount : ℕ) (sectionDelim : Char) :
    ℕ → ℕ → StringMap → StringMap × ℕ
  | 0, i, map => (map, i)
  | fuel + 1, i, map =>
    if i < lineCount then
      let line := lines.getD i ""
      if firstChar line = sectionDelim then (map, i)
      else if firstChar line = '#' then
        parseStringMapLoop lines lineCount sectionDelim fuel (i + 1) map
      else
        match findFirstOf line ':' with
        | none => parseStringMapLoop lines lineCount sectionDelim fuel (i + 1) map
        | some colonPos =>
          let key := substr line 0 colonPos
          let val := substr line (colonPos + 1) (line.toList.length - colonPos)
          parseStringMapLoop lines lineCount sectionDelim fuel (i + 1) (map.set key val)
    else (map, i)

/-- Translation of `parseStringMap`: the map read from the lines `i, i+1, ...` up to the
next section delimiter, and the value of `i` after the final `--i`. -/
def parseStringMap (lines : List String) (i lineCount : ℕ) (sectionDelim : Char) :
    StringMap × ℤ :=
  let r := parseStringMapLoop lines lineCount sectionDelim (lineCount - i) i []
  (r.1, (r.2 : ℤ) - 1)

/-- Whether `s.find("true") != npos`. -/
def containsTrue : List Char → Bool
  | [] => false
  | c :: cs => "true".toList.isPrefixOf (c :: cs) || containsTrue cs

/-- Translation of `getInt` with a default value; `stoi` is `std::stoi`, which returns
`none` when it throws. -/
def getInt (stoi : String → Option ℤ) (map : StringMap) (name : String) (defaultValue : ℤ) :
    Except LoadError ℤ :=
  if map.count name then
    match stoi (map.at name) with
    | some v => Except.ok v
    | none => Except.error LoadError.stdException
  else Except.ok defaultValue

/-- Translation of `getFloat` with a default value; `stof` is `std::stof`, which returns
`none` when it throws. -/
def getFloat (stof : String → Option ℚ) (map : StringMap) (name : String) (defaultValue : ℚ) :
    Except LoadError ℚ :=
  if map.count name then
    match stof (map.at name) with
    | some v => Except.ok v
    | none => Except.error LoadError.stdException
  else Except.ok defaultValue

/-- Translation of `getBool` with a default value. -/
def getBool (map : StringMap) (name : String) (defaultValue : Bool) : Bool :=
  if map.count name then containsTrue (map.at name).toList else defaultValue

/-- The lookup `modeMap[s]` in the map built by `loadFromFile`.  For a key that is not in
the map, `std::map::operator[]` inserts a value-initialised `Mode`, the first enumerator
`Mode::Perlin`, and returns it. -/
def modeMapLookup (s : String) : Mode :=
  if s = "perlin" then Mode.Perlin
  else if s = "worley" then Mode.Worley
  else if s = "perlinWorley" then Mode.PerlinWorley
  else if s = "blueNoise" then Mode.BlueNoise
  else if s = "curl" then Mode.Curl
  else Mode.Perlin

/-- Translation of `ChannelConfig::loadFromFile`: the updated channel configuration and
the updated index `i`, or the exception thrown. -/
def ChannelConfig.loadFromFile (stoi : String → Option ℤ) (stof : String → Option ℚ)
    (c : ChannelConfig) (lines : List String) (i lineCount : ℕ) :
    Except LoadError (ChannelConfig × ℤ) :=
  let r := parseStringMap lines i lineCount '~'
  let map := r.1
  if map.count "mode" = false then Except.error (LoadError.configError "Missing option: mode")
  else do
    let mode := modeMapLookup (map.at "mode")
    let inverted := getBool map "inverted" false
    let powerCurve ← getFloat stof map "powerCurve" 1
    let c := { c with mode := mode, inverted := inverted, powerCurve := powerCurve }
    match mode with
    | Mode.PerlinWorley =>
      let worleyWeight ← getFloat stof map "worleyWeight" 0.3
      let perlinOctaveCount ← getInt stoi map "perlinOctaveCount" 1
      let perlinFrequency ← getFloat stof map "perlinFrequency" 10
      let perlinLacunarity ← getFloat stof map "perlinLacunarity" 2
      let perlinPersistence ← getFloat stof map "perlinPersistence" 0.5
      let worleyOctaveCount ← getInt stoi map "worleyOctaveCount" 1
      let worleyFrequency ← getFloat stof map "worleyFrequency" 10
      let worleyLacunarity ← getFloat stof map "worleyLacunarity" 2
      let worleyPersistence ← getFloat stof map "worleyPersistence" 0.5
      pure ({ c with
        worleyWeight := worleyWeight
        perlinOctaveCount := perlinOctaveCount
        perlinFrequency := perlinFrequency
        perlinLacunarity := perlinLacunarity
        perlinPersistence := perlinPersistence
        worleyOctaveCount := worleyOctaveCount
        worleyFrequency := worleyFrequency
        worleyLacunarity := worleyLacunarity
        worleyPersistence := worleyPersistence }, r.2)
    | Mode.BlueNoise =>
      let blueNoiseRes ← getInt stoi map "blueNoiseRes" 32
      let zoom ← getInt stoi map "zoom" 1
      pure ({ c with
        blueNoiseRes := (blueNoiseRes % 2 ^ 32).toNat
        zoom := zoom }, r.2)
    | Mode.Curl =>
      let frequency ← getFloat stof map "frequency" 10
      pure ({ c with frequency := frequency }, r.2)
    | _ =>
      let octaveCount ← getInt stoi map "octaveCount" 1
      let frequency ← getFloat stof map "frequency" 10
      let lacunarity ← getFloat stof map "lacunarity" 2
      let persistence ← getFloat stof map "persistence" 0.5
      pure ({ c with
        octaveCount := octaveCount
        frequency := frequency
        lacunarity := lacunarity
        persistence := persistence }, r.2)

/-- Data members of `Config`. -/
structure Config where
  name : String
  width : ℤ
  height : ℤ
  depth : ℤ
  m_channelConfigs : List ChannelConfig

/-- Translation of `Config::getChannelCount`. -/
def Config.getChannelCount (config : Config) : ℤ := config.m_channelConfigs.length

/-- Translation of `Config::getChannelConfig`.  An index outside the vector is undefined
in C++; the model returns a default configuration for it. -/
def Config.getChannelConfig (config : Config) (index : ℤ) : ChannelConfig :=
  config.m_channelConfigs.getD index.toNat default

/-- The number `n` of copies requested by a line that starts a channel section: `1`,
or the largest of the digits `2`, `3`, `4` that occurs in the line. -/
def duplicateCount (line : String) : ℕ :=
  let n := 1
  let n := if (findFirstOf line '2').isSome then 2 else n
  let n := if (findFirstOf line '3').isSome then 3 else n
  let n := if (findFirstOf line '4').isSome then 4 else n
  n

/-- State of the constructor `Config::Config` when it returns: the object, the random
state of `reseed`, and the exception caught by its `catch` clause, if any. -/
structure ConfigLoad where
  config : Config
  randomState : ℕ
  error : Option LoadError

/-- The loop over the lines of `Config::Config` (`fuel` bounds the number of
iterations; every iteration increases `i`).  `c0` is the uninitialised local
`ChannelConfig c`.  Returns the channel list, the random state and the exception that
ended the loop, if any. -/
def channelLoop (stoi : String → Option ℤ) (stof : String → Option ℚ) (c0 : ChannelConfig)
    (lines : List String) (lineCount : ℕ) :
    ℕ → ℕ → List ChannelConfig → ℕ → List ChannelConfig × ℕ × Option LoadError
  | 0, _, configs, randomState => (configs, randomState, none)
  | fuel + 1, i, configs, randomState =>
    if i < lineCount then
      if firstChar (lines.getD i "") = '~' then
        let n := duplicateCount (lines.getD i "")
        match c0.loadFromFile stoi stof lines (i + 1) lineCount with
        | Except.error e => (configs, randomState, some e)
        | Except.ok (c, i') =>
          let r := pushReseeded n c randomState configs
          channelLoop stoi stof c0 lines lineCount fuel (i' + 1).toNat r.1 r.2
      else channelLoop stoi stof c0 lines lineCount fuel (i + 1) configs randomState
    else (configs, randomState, none)

/-- The three assignments `width = stoi(...)`, `height = stoi(...)`, `depth = stoi(...)`
of `Config::Config` for the size line with its two delimiter positions: the object
after the assignments made, and the exception thrown, if any. -/
def parseSize (stoi : String → Option ℤ) (config : Config) (line : String) (delim0 delim1 : ℕ) :
    Config × Option LoadError :=
  match stoi (substr line 0 delim0) with
  | none => (config, some LoadError.stdException)
  | some width =>
    let config := { config with width := width }
    match stoi (substr line (delim0 + 1) ((delim1 + 2 ^ 64 - delim0 - 1) % 2 ^ 64)) with
    | none => (config, some LoadError.stdException)
    | some height =>
      let config := { config with height := height }
      match stoi (substr line (delim1 + 1) (line.toList.length - delim1)) with
      | none => (config, some LoadError.stdException)
      | some depth => ({ config with depth := depth }, none)

/-- Translation of the constructor `Config::Config`.  `lines` are the lines of the file
`input/<name>.txt` (none when the file does not exist), `uninitialised` gives the
indeterminate initial values of `width`, `height` and `depth`.  The `catch` clause prints
the exception and the constructor returns normally. -/
def Config.load (stoi : String → Option ℤ) (stof : String → Option ℚ) (uninitialised : Config)
    (c0 : ChannelConfig) (name : String) (lines : List String) (randomState : ℕ) : ConfigLoad :=
  let config : Config := { uninitialised with name := name, m_channelConfigs := [] }
  if lines.isEmpty then
    ⟨config, randomState, some (LoadError.configError "File is empty or does not exist")⟩
  else
    match findFirstOf (lines.getD 0 "") 'x', findLastOf (lines.getD 0 "") 'x' with
    | some delim0, some delim1 =>
      match parseSize stoi config (lines.getD 0 "") delim0 delim1 with
      | (config, some e) => ⟨config, randomState, some e⟩
      | (config, none) =>
        let lineCount := lines.length
        let r := channelLoop stoi stof c0 lines lineCount lineCount 0 [] randomState
        let config := { config with m_channelConfigs := r.1 }
        match r.2.2 with
        | some e => ⟨config, r.2.1, some e⟩
        | none =>
          if config.getChannelCount > 4 then
            ⟨config, r.2.1, some (LoadError.configError "Invalid number of channels")⟩
          else ⟨config, r.2.1, none⟩
    | _, _ =>
      ⟨config, randomState, some (LoadError.configError "Invalid texture size description")⟩

/-- What `generateNoiseTexture` builds before it calls `process`: the configuration, the
exception its constructor caught (if any), the `VolumeTexture` constructed from the
configuration, and the function passed to `process`. -/
structure Generation where
  config : Config
  error : Option LoadError
  texture : VolumeTexture
  evaluator : Vec3 → ℕ → FVal

/-- Translation of `generateNoiseTexture` up to the call `texture.process(...)`. -/
def generateNoiseTexture (perlin : Vec4 → Vec4 → ℚ) (sqrtF : ℚ → ℚ) (powF : FVal → ℚ → FVal)
    (blueNoiseTextures : ℤ → VolumeTexture) (stoi : String → Option ℤ)
    (stof : String → Option ℚ) (uninitialised : Config) (c0 : ChannelConfig) (name : String)
    (lines : List String) (randomState : ℕ) : Generation :=
  let r := Config.load stoi stof uninitialised c0 name lines randomState
  let config := r.config
  let size : UVec3 :=
    ⟨(config.width % 2 ^ 32).toNat, (config.height % 2 ^ 32).toNat, (config.depth % 2 ^ 32).toNat⟩
  let channelCount := config.getChannelCount
  let texture := VolumeTexture.new size (channelCount % 2 ^ 32).toNat
  { config := config
    error := r.error
    texture := texture
    evaluator := fun pos channel =>
      getNoise perlin sqrtF powF blueNoiseTextures (config.getChannelConfig channel) pos channel }

/-- A configuration file that asks for five channels: four copies of a gradient channel
and one cellular channel. -/
def fiveChannelLines : List String := ["1x1x1", "~4", "mode:perlin", "~", "mode:worley"]

/-- The value of a string of decimal digits read from the left, `none` when a character
is not a digit. -/
def digitsValue : List Char → ℕ → Option ℕ
  | [], acc => some acc
  | c :: cs, acc => if c.isDigit then digitsValue cs (acc * 10 + (c.toNat - 48)) else none

/-- An executable instance of the parameter `stoi` for non-empty strings of decimal
digits. -/
def stoiDigits (s : String) : Option ℤ :=
  if s.toList.isEmpty then none else (digitsValue s.toList 0).map Int.ofNat

/-! ## Binary32 arithmetic

The definitions of this section compute as the program does on IEEE 754 binary32
numbers (`float`): an operation returns its exact result rounded to the nearest number
with a 24-bit significand, a tie going to the even significand; a rounded result beyond
the largest finite number is an infinity; infinities and NaN combine as in `FVal`.
A binary32 value is an `FVal` whose finite payload is a number of the binary32 grid. -/

/-- Nearest integer to `t`; a tie goes to the even neighbour. -/
def roundHalfEven (t : ℚ) : ℤ :=
  let f := ⌊t⌋
  if t - f < 1 / 2 then f
  else if 1 / 2 < t - f then f + 1
  else if f % 2 = 0 then f else f + 1

/-- The number of halvings that bring `n` below `2`, at most `fuel` of them. -/
def log2Fuel : ℕ → ℕ → ℕ
  | 0, _ => 0
  | fuel + 1, n => if 2 ≤ n then log2Fuel fuel (n / 2) + 1 else 0

/-- Binary logarithm of a natural number, rounded down (`0` for `0`). -/
def natLog2 (n : ℕ) : ℕ := log2Fuel n n

/-- Binary logarithm of `|q|`, rounded down: the `e` with `2^e ≤ |q| < 2^(e+1)` when
`q ≠ 0`. -/
def floorLog2 (q : ℚ) : ℤ :=
  let e : ℤ := (natLog2 q.num.natAbs : ℤ) - (natLog2 q.den : ℤ)
  if (2 : ℚ) ^ e ≤ |q| then e else e - 1

/-- Exponent of the spacing of the binary32 numbers around `q`: 23 below the exponent of
`q`, and `-149` in the subnormal range. -/
def ulpExponent (q : ℚ) : ℤ := max (floorLog2 q) (-126) - 23

/-- The binary32 number nearest to `q` (ties to even), with no bound on the exponent. -/
def roundToGrid (q : ℚ) : ℚ := roundHalfEven (q / 2 ^ ulpExponent q) * 2 ^ ulpExponent q

/-- Largest finite binary32 number (`FLT_MAX`). -/
def maxFloat : ℚ := (2 ^ 24 - 1) * 2 ^ 104

/-- Rounding of an exact result to binary32: the nearest binary32 number, or an infinity
when that number is beyond `maxFloat`.  Also the conversion of an integer and the value of
a decimal literal. -/
def round32 (q : ℚ) : FVal :=
  let r := roundToGrid q
  if maxFloat < r then FVal.posInf else if r < -maxFloat then FVal.negInf else FVal.fin r

/-- Greedy search of the bits of the integer square root of `n`, from bit `k - 1` down. -/
def isqrtBits : ℕ → ℕ → ℕ → ℕ
  | 0, _, r => r
  | k + 1, n, r =>
    if (r + 2 ^ k) * (r + 2 ^ k) ≤ n then isqrtBits k n (r + 2 ^ k) else isqrtBits k n r

/-- Integer square root: the largest `r` with `r * r ≤ n`. -/
def isqrt (n : ℕ) : ℕ := isqrtBits (natLog2 n / 2 + 1) n 0

/-- The binary32 number nearest to the square root of `q > 0` (`sqrtf` is correctly
rounded): with `u` the spacing of the grid at the root, the root lies between `m * u` and
`(m + 1) * u` for `m = isqrt ⌊q / u^2⌋`, and `q / u^2` is compared with `(m + 1/2)^2`. -/
def sqrtToGrid (q : ℚ) : ℚ :=
  let u : ℚ := 2 ^ (Int.fdiv (floorLog2 q) 2 - 23)
  let t := q / (u * u)
  let m : ℕ := isqrt ⌊t⌋.toNat
  let h : ℚ := ((m : ℚ) + 1 / 2) * ((m : ℚ) + 1 / 2)
  let r : ℕ := if t < h then m else if h < t then m + 1 else if m % 2 = 0 then m else m + 1
  (r : ℚ) * u

namespace FVal

/-- Float comparison `a <= b`; every comparison with NaN is false. -/
def le : FVal → FVal → Bool
  | fin a, fin b => decide (a ≤ b)
  | fin _, posInf => true
  | negInf, fin _ => true
  | negInf, posInf => true
  | posInf, posInf => true
  | negInf, negInf => true
  | _, _ => false

/-- Rounding of the exact result of an operation to binary32. -/
def round : FVal → FVal
  | fin q => round32 q
  | v => v

/-- Binary32 sum. -/
def add32 (a b : FVal) : FVal := round (add a b)

/-- Binary32 product. -/
def mul32 (a b : FVal) : FVal := round (mul a b)

/-- Binary32 quotient. -/
def div32 (a b : FVal) : FVal := round (quot a b)

/-- Largest integer not above a float (`floor`, `glm::floor`); exact. -/
def floor32 : FVal → FVal
  | fin q => fin (⌊q⌋ : ℤ)
  | v => v

/-- Conversion `(uint32_t) v` of a float.  The conversion of NaN, of an infinity, of a
negative value or of one that does not fit is undefined in C++; no theorem below depends
on the value chosen here for them. -/
def toUint32 : FVal → ℕ
  | fin q => VolumeNoise.toUint32 q
  | _ => 0

/-- Conversion `static_cast<uint8_t>(v)` of a float: truncation toward zero, and `none`
where C++ leaves the conversion undefined (NaN, an infinity, or a truncated value outside
`0..255`). -/
def toUint8 : FVal → Option ℕ
  | fin q => if -1 < q ∧ q < 256 then some ⌊q⌋.toNat else none
  | _ => none

end FVal

/-- Three binary32 components (`glm::vec3`). -/
structure FVec3 where
  x : FVal
  y : FVal
  z : FVal
deriving DecidableEq

/-- Vector times scalar (`v * s`) in binary32. -/
def FVec3.scale32 (v : FVec3) (s : FVal) : FVec3 :=
  ⟨FVal.mul32 v.x s, FVal.mul32 v.y s, FVal.mul32 v.z s⟩

/-! ## `main.cpp`: fractal summation in binary32 -/

/-- Local variables of the octave loop of `fBm`, as binary32 values. -/
structure FBmState32 where
  amplitude : FVal
  noiseSum : FVal
  amplitudeSum : FVal
  frequency : FVal
  seed : ℕ
deriving DecidableEq

/-- One iteration of the octave loop of `fBm` in binary32. -/
def fBmStep32 (noiseFunction : ℕ → FVec3 → FVec3 → FVal) (pos repeat_ : FVec3)
    (lacunarity persistence : FVal) (st : FBmState32) : FBmState32 :=
  let noise := noiseFunction st.seed (pos.scale32 st.frequency) (repeat_.scale32 st.frequency)
  { noiseSum := FVal.add32 st.noiseSum (FVal.mul32 st.amplitude noise)
    amplitudeSum := FVal.add32 st.amplitudeSum st.amplitude
    amplitude := FVal.mul32 st.amplitude persistence
    frequency := FVal.mul32 st.frequency lacunarity
    seed := lowbias32 st.seed }

/-- The octave loop of `fBm` in binary32, run for `n` iterations. -/
def fBmLoop32 (noiseFunction : ℕ → FVec3 → FVec3 → FVal) (pos repeat_ : FVec3)
    (lacunarity persistence : FVal) : ℕ → FBmState32 → FBmState32
  | 0, st => st
  | n + 1, st =>
    fBmLoop32 noiseFunction pos repeat_ lacunarity persistence n
      (fBmStep32 noiseFunction pos repeat_ lacunarity persistence st)

/-- Translation of `fBm` with every operation in binary32. -/
def fBm32 (noiseFunction : ℕ → FVec3 → FVec3 → FVal) (seed : ℕ) (pos repeat_ : FVec3)
    (octaveCount : ℤ) (frequency lacunarity persistence : FVal) : FVal :=
  if octaveCount ≤ 0 then FVal.fin 0
  else
    let st := fBmLoop32 noiseFunction pos repeat_ lacunarity persistence octaveCount.toNat
      { amplitude := FVal.fin 1, noiseSum := FVal.fin 0, amplitudeSum := FVal.fin 0,
        frequency := frequency, seed := seed }
    FVal.clamp (FVal.div32 st.noiseSum st.amplitudeSum) (FVal.fin 0) (FVal.fin 1)

/-- The power `base * factor^i` accumulated in binary32 by `i` successive products. -/
def power32 (base factor : FVal) : ℕ → FVal
  | 0 => base
  | i + 1 => FVal.mul32 (power32 base factor i) factor

/-- The sum of `term 0, ..., term (n - 1)` accumulated in binary32 from `0.0`. -/
def sum32 (term : ℕ → FVal) : ℕ → FVal
  | 0 => FVal.fin 0
  | n + 1 => FVal.add32 (sum32 term n) (term n)

/-- Reference definition of fractal summation, following the specification, evaluated in
binary32 in the order of the octaves: the weighted sum of the octaves divided by the sum
of the weights, clamped to `[0, 1]`. -/
def fBmReference32 (primitive : ℕ → FVec3 → FVec3 → FVal) (seed : ℕ) (pos repeat_ : FVec3)
    (octaveCount : ℤ) (frequency lacunarity persistence : FVal) : FVal :=
  if octaveCount ≤ 0 then FVal.fin 0
  else
    let n := octaveCount.toNat
    let S := sum32 (fun i => FVal.mul32 (power32 (FVal.fin 1) persistence i)
      (primitive (lowbias32^[i] seed) (pos.scale32 (power32 frequency lacunarity i))
        (repeat_.scale32 (power32 frequency lacunarity i)))) n
    let A := sum32 (power32 (FVal.fin 1) persistence) n
    FVal.clamp (FVal.div32 S A) (FVal.fin 0) (FVal.fin 1)

/-! ## `main.cpp`: cellular noise in binary32 -/

/-- Translation of `VolumeTexture::unormToByte` on binary32 values, NaN and the infinities
included; `255.99f` is the binary32 number nearest to `255.99`.  The result is `none`
where the conversion to `uint8_t` is undefined. -/
def unormToByte32 (v : FVal) : Option ℕ :=
  let v := FVal.clamp v (FVal.fin 0) (FVal.fin 1)
  let v := FVal.floor32 (FVal.mul32 v (round32 255.99))
  FVal.toUint8 v

/-- The vector `pos = vec3(x, y, z) / vec3(m_size)` of `VolumeTexture::process`: the
unsigned coordinates and sizes are converted to binary32, then divided in binary32. -/
def voxelPosition32 (size : UVec3) (x y z : ℕ) : FVec3 :=
  { x := FVal.div32 (round32 x) (round32 size.x)
    y := FVal.div32 (round32 y) (round32 size.y)
    z := FVal.div32 (round32 z) (round32 size.z) }

/-- Translation of `VolumeTexture::process` with the position and the quantisation in
binary32; the result is `none` when a store or a conversion is undefined. -/
def VolumeTexture.process32 (t : VolumeTexture) (f : FVec3 → ℕ → FVal) : Option ProcessState :=
  (List.range t.m_size.z).foldlM (fun st (z : ℕ) =>
    (List.range t.m_size.y).foldlM (fun st (y : ℕ) =>
      (List.range t.m_size.x).foldlM (fun st (x : ℕ) =>
        let pos := voxelPosition32 t.m_size x y z
        (List.range t.m_channels).foldlM (fun st (channel : ℕ) =>
          let v := f pos channel
          (unormToByte32 v).bind (storeByte st)) st) st) st)
    { index := 0, data := t.m_data, written := [] }

/-- The arguments `(pos, channel)` of the calls `f(pos, channel)` made by
`VolumeTexture::process`, with the positions in binary32, in the order of the calls. -/
def processCalls32 (size : UVec3) (channels : ℕ) : List (FVec3 × ℕ) :=
  (List.range size.z).flatMap fun z =>
    (List.range size.y).flatMap fun y =>
      (List.range size.x).flatMap fun x =>
        (List.range channels).map fun channel => (voxelPosition32 size x y z, channel)

/-! ## Theorems -/

theorem fBmLoop_eq (nf : ℕ → Vec3 → Vec3 → ℚ) (pos rep : Vec3) (l p : ℚ) (n : ℕ) (st : FBmState) :
    fBmLoop nf pos rep l p n st =
      { amplitude := st.amplitude * p ^ n
        noiseSum := st.noiseSum + ∑ i in Finset.range n, st.amplitude * p ^ i *
          nf (lowbias32^[i] st.seed) (pos.scale (st.frequency * l ^ i))
            (rep.scale (st.frequency * l ^ i))
        amplitudeSum := st.amplitudeSum + ∑ i in Finset.range n, st.amplitude * p ^ i
        frequency := st.frequency * l ^ n
        seed := lowbias32^[n] st.seed } := by
  induction n generalizing st with
  | zero => simp [fBmLoop]
  | succ n ih =>
    rw [fBmLoop, ih]
    simp only [fBmStep, Finset.sum_range_succ', Function.iterate_succ, Function.comp_apply,
      pow_zero, mul_one, pow_succ']
    congr 1
    · ring
    · rw [add_assoc, add_comm (st.amplitude * nf _ _ _)]
      congr 2
      apply Finset.sum_congr rfl
      intro i _
      rw [mul_assoc st.frequency l (l ^ i), mul_assoc st.amplitude p (p ^ i)]
    · rw [add_assoc, add_comm st.amplitude]
      congr 2
      apply Finset.sum_congr rfl
      intro i _
      ring
    · ring

/-- In exact arithmetic `fBm` equals the closed form over the rationals: `0` for a
non-positive octave count, otherwise the clamped quotient of the weighted octave sum by
the sum of the weights. -/
theorem fBm_eq_reference (primitive : ℕ → Vec3 → Vec3 → ℚ) (seed : ℕ) (pos repeat_ : Vec3)
    (octaveCount : ℤ) (frequency lacunarity persistence : ℚ) :
    fBm primitive seed pos repeat_ octaveCount frequency lacunarity persistence =
      fBmReference primitive seed pos repeat_ octaveCount frequency lacunarity persistence := by
  unfold fBm fBmReference
  split
  · rfl
  · rw [fBmLoop_eq]
    simp

theorem clamp_div_inUnit_or_nan (a b : ℚ) :
    FVal.clamp (FVal.div a b) (FVal.fin 0) (FVal.fin 1) = FVal.nan ∨
      FVal.InUnit (FVal.clamp (FVal.div a b) (FVal.fin 0) (FVal.fin 1)) := by
  unfold FVal.div
  by_cases hb : b = 0
  · rw [if_pos hb]
    by_cases ha : a = 0
    · left
      simp [ha, FVal.clamp, FVal.max, FVal.min, FVal.lt]
    · right
      rw [if_neg ha]
      by_cases hp : 0 < a
      · simp [hp, FVal.clamp, FVal.max, FVal.min, FVal.lt, FVal.InUnit]
      · have e : FVal.clamp (if 0 < a then FVal.posInf else FVal.negInf) (FVal.fin 0)
            (FVal.fin 1) = FVal.fin 0 := by
          simp [hp, FVal.clamp, FVal.max, FVal.min, FVal.lt]
        rw [e]
        exact ⟨le_rfl, zero_le_one⟩
  · right
    rw [if_neg hb]
    by_cases h0 : a / b < 0
    · have e : FVal.clamp (FVal.fin (a / b)) (FVal.fin 0) (FVal.fin 1) = FVal.fin 0 := by
        simp [h0, FVal.clamp, FVal.max, FVal.min, FVal.lt]
      rw [e]
      exact ⟨le_rfl, zero_le_one⟩
    · by_cases h1 : 1 < a / b
      · have e : FVal.clamp (FVal.fin (a / b)) (FVal.fin 0) (FVal.fin 1) = FVal.fin 1 := by
          simp [h0, h1, FVal.clamp, FVal.max, FVal.min, FVal.lt]
        rw [e]
        exact ⟨zero_le_one, le_rfl⟩
      · have e : FVal.clamp (FVal.fin (a / b)) (FVal.fin 0) (FVal.fin 1) = FVal.fin (a / b) := by
          simp [h0, h1, FVal.clamp, FVal.max, FVal.min, FVal.lt]
        rw [e]
        exact ⟨not_lt.mp h0, not_lt.mp h1⟩

/-- The value of `fBm` is a number of `[0, 1]` or NaN (the quotient `0 / 0`). -/
theorem fBm_inUnit_or_nan (noiseFunction : ℕ → Vec3 → Vec3 → ℚ) (seed : ℕ) (pos repeat_ : Vec3)
    (octaveCount : ℤ) (frequency lacunarity persistence : ℚ) :
    fBm noiseFunction seed pos repeat_ octaveCount frequency lacunarity persistence = FVal.nan ∨
      FVal.InUnit
        (fBm noiseFunction seed pos repeat_ octaveCount frequency lacunarity persistence) := by
  unfold fBm
  split
  · right
    simp [FVal.InUnit]
  · exact clamp_div_inUnit_or_nan _ _

/-- C1: with two octaves of weights `1` and `-1` and a primitive that returns `1/2`
everywhere, both sums are zero and `fBm` returns NaN, which is not in `[0, 1]`. -/
theorem fBm_zero_weight_sum_nan :
    fBm (fun _ _ _ => 1 / 2) 0 ⟨0, 0, 0⟩ ⟨1, 1, 1⟩ 2 1 1 (-1) = FVal.nan ∧
      ¬ FVal.InUnit (fBm (fun _ _ _ => 1 / 2) 0 ⟨0, 0, 0⟩ ⟨1, 1, 1⟩ 2 1 1 (-1)) := by
  have h : fBm (fun _ _ _ => 1 / 2) 0 ⟨0, 0, 0⟩ ⟨1, 1, 1⟩ 2 1 1 (-1) = FVal.nan := by
    simp [fBm, fBmLoop, fBmStep, FVal.div, FVal.clamp, FVal.max, FVal.min, FVal.lt]
  exact ⟨h, by rw [h]; exact fun h => h⟩

/-! ### Cellular noise: periodicity -/

theorem glmMin_eq_min (x y : ℚ) : glmMin x y = min x y := by
  unfold glmMin
  split
  · next h => exact (min_eq_right h.le).symm
  · next h => exact (min_eq_left (not_lt.mp h)).symm

theorem glmMod_add_int_mul (x r : ℚ) (a : ℤ) (hr : r ≠ 0) :
    glmMod (x + a * r) r = glmMod x r := by
  unfold glmMod
  have h : (x + a * r) / r = x / r + a := by field_simp
  rw [h, Int.floor_add_int]
  push_cast
  ring

theorem wrap_add_int_mul (x r : ℚ) (a : ℤ) (hr : r ≠ 0) :
    wrap (x + a * r) 0 r = wrap x 0 r := by
  unfold wrap wrapMax
  simp only [sub_zero]
  rw [glmMod_add_int_mul x r a hr]

theorem floor_add_int_vec (p : Vec3) (dx dy dz : ℤ) :
    (p.add ⟨dx, dy, dz⟩).floor = p.floor.add ⟨dx, dy, dz⟩ := by
  simp [Vec3.floor, Vec3.add, Int.floor_add_int]

/-- Shifting the sample position by whole periods of the wrap actually performed
(`repeat.x` along x, `repeat.y` along y and, as the source wraps z with `repeat.y`,
`repeat.y` along z) leaves every neighbour distance unchanged. -/
theorem neighbourDistance_shift (sqrtF : ℚ → ℚ) (seed : ℕ) (p r : Vec3) (dx dy dz a b c : ℤ)
    (hrx : r.x ≠ 0) (hry : r.y ≠ 0)
    (hx : (dx : ℚ) = a * r.x) (hy : (dy : ℚ) = b * r.y) (hz : (dz : ℚ) = c * r.y) (x y z : ℤ) :
    neighbourDistance sqrtF seed (p.add ⟨dx, dy, dz⟩) r (p.add ⟨dx, dy, dz⟩).floor x y z =
      neighbourDistance sqrtF seed p r p.floor x y z := by
  have hidx : neighbourIndex (((p.add ⟨dx, dy, dz⟩).floor).add ⟨x, y, z⟩) r =
      neighbourIndex (p.floor.add ⟨x, y, z⟩) r := by
    have hrn : repeatedNeighbour (((p.add ⟨dx, dy, dz⟩).floor).add ⟨x, y, z⟩) r =
        repeatedNeighbour (p.floor.add ⟨x, y, z⟩) r := by
      rw [floor_add_int_vec]
      simp only [repeatedNeighbour, Vec3.add, Vec3.floor]
      have e1 : (⌊p.x⌋ : ℚ) + dx + x = (⌊p.x⌋ + x) + a * r.x := by rw [hx]; ring
      have e2 : (⌊p.y⌋ : ℚ) + dy + y = (⌊p.y⌋ + y) + b * r.y := by rw [hy]; ring
      have e3 : (⌊p.z⌋ : ℚ) + dz + z = (⌊p.z⌋ + z) + c * r.y := by rw [hz]; ring
      rw [e1, e2, e3, wrap_add_int_mul _ _ a hrx, wrap_add_int_mul _ _ b hry,
        wrap_add_int_mul _ _ c hry]
    simp only [neighbourIndex, hrn]
  simp only [neighbourDistance, featurePoint, hidx, glmDistance]
  rw [floor_add_int_vec]
  congr 1
  simp only [Vec3.dot, Vec3.sub, Vec3.add, Vec3.divScalar, Vec3.floor]
  ring

theorem getWorleyNoise_shift (sqrtF : ℚ → ℚ) (seed : ℕ) (p r : Vec3) (dx dy dz a b c : ℤ)
    (hrx : r.x ≠ 0) (hry : r.y ≠ 0)
    (hx : (dx : ℚ) = a * r.x) (hy : (dy : ℚ) = b * r.y) (hz : (dz : ℚ) = c * r.y) :
    getWorleyNoise sqrtF seed (p.add ⟨dx, dy, dz⟩) r = getWorleyNoise sqrtF seed p r := by
  unfold getWorleyNoise
  simp only [neighbourDistance_shift sqrtF seed p r dx dy dz a b c hrx hry hx hy hz]

/-- Cellular noise is periodic with period `repeat` when `repeat` has non-zero integer
components and `repeat.y = repeat.z`. -/
theorem getWorleyNoise_periodic_of_y_eq_z (sqrtF : ℚ → ℚ) (seed : ℕ) (p : Vec3) (a b k : ℤ)
    (ha : a ≠ 0) (hb : b ≠ 0) :
    getWorleyNoise sqrtF seed (p.add (Vec3.scale ⟨a, b, b⟩ k)) ⟨a, b, b⟩ =
      getWorleyNoise sqrtF seed p ⟨a, b, b⟩ := by
  have h := getWorleyNoise_shift sqrtF seed p ⟨a, b, b⟩ (a * k) (b * k) (b * k) k k k
    (by show (a : ℚ) ≠ 0; exact_mod_cast ha) (by show (b : ℚ) ≠ 0; exact_mod_cast hb)
    (by push_cast; ring) (by push_cast; ring) (by push_cast; ring)
  simpa [Vec3.scale] using h

theorem foldl_min_spec {α : Type} (f : α → ℚ) (L : List α) (init : ℚ) :
    L.foldl (fun d a => min d (f a)) init ≤ init ∧
      (∀ a ∈ L, L.foldl (fun d a => min d (f a)) init ≤ f a) ∧
      (L.foldl (fun d a => min d (f a)) init = init ∨
        ∃ a ∈ L, L.foldl (fun d a => min d (f a)) init = f a) := by
  induction L generalizing init with
  | nil => simp
  | cons b L ih =>
    obtain ⟨h1, h2, h3⟩ := ih (min init (f b))
    simp only [List.foldl_cons, List.mem_cons]
    refine ⟨h1.trans (min_le_left _ _), ?_, ?_⟩
    · rintro a (rfl | ha)
      · exact h1.trans (min_le_right _ _)
      · exact h2 a ha
    · rcases h3 with h | ⟨a, ha, h⟩
      · rcases min_choice init (f b) with h' | h'
        · exact Or.inl (h.trans h')
        · exact Or.inr ⟨b, Or.inl rfl, h.trans h'⟩
      · exact Or.inr ⟨a, Or.inr ha, h⟩

theorem getWorleyNoise_eq_foldl (sqrtF : ℚ → ℚ) (seed : ℕ) (pos repeat_ : Vec3) :
    getWorleyNoise sqrtF seed pos repeat_ =
      neighbourOffsets.foldl
        (fun d o => min d (neighbourDistance sqrtF seed pos repeat_ pos.floor o.1 o.2.1 o.2.2)) 1 := by
  simp only [getWorleyNoise, glmMin_eq_min]
  rfl

theorem mem_neighbourOffsets (x y z : ℤ) :
    (x, y, z) ∈ neighbourOffsets ↔
      (-1 ≤ x ∧ x ≤ 1) ∧ (-1 ≤ y ∧ y ≤ 1) ∧ (-1 ≤ z ∧ z ≤ 1) := by
  constructor
  · intro h
    simp [neighbourOffsets] at h
    omega
  · rintro ⟨⟨hx, hx'⟩, ⟨hy, hy'⟩, ⟨hz, hz'⟩⟩
    interval_cases x <;> interval_cases y <;> interval_cases z <;> simp [neighbourOffsets]

theorem getWorleyNoise_le_neighbourDistance (sqrtF : ℚ → ℚ) (seed : ℕ) (pos repeat_ : Vec3)
    (x y z : ℤ) (h : (-1 ≤ x ∧ x ≤ 1) ∧ (-1 ≤ y ∧ y ≤ 1) ∧ (-1 ≤ z ∧ z ≤ 1)) :
    getWorleyNoise sqrtF seed pos repeat_ ≤
      neighbourDistance sqrtF seed pos repeat_ pos.floor x y z := by
  rw [getWorleyNoise_eq_foldl]
  exact (foldl_min_spec
    (fun o : ℤ × ℤ × ℤ => neighbourDistance sqrtF seed pos repeat_ pos.floor o.1 o.2.1 o.2.2)
    neighbourOffsets 1).2.1 (x, y, z) ((mem_neighbourOffsets x y z).2 h)

theorem getWorleyNoise_eq_one_of_far (sqrtF : ℚ → ℚ) (seed : ℕ) (pos repeat_ : Vec3)
    (h : ∀ x y z : ℤ, (-1 ≤ x ∧ x ≤ 1) ∧ (-1 ≤ y ∧ y ≤ 1) ∧ (-1 ≤ z ∧ z ≤ 1) →
      1 ≤ neighbourDistance sqrtF seed pos repeat_ pos.floor x y z) :
    getWorleyNoise sqrtF seed pos repeat_ = 1 := by
  rw [getWorleyNoise_eq_foldl]
  obtain ⟨h1, _, h3⟩ := foldl_min_spec
    (fun o : ℤ × ℤ × ℤ => neighbourDistance sqrtF seed pos repeat_ pos.floor o.1 o.2.1 o.2.2)
    neighbourOffsets 1
  rcases h3 with h' | ⟨⟨x, y, z⟩, ho, h'⟩
  · exact h'
  · exact le_antisymm h1 (h'.symm ▸ h x y z ((mem_neighbourOffsets x y z).1 ho))

/-- C5 (amended): `getWorleyNoise` returns the least of `1.0` and the 27 distances from
`pos` to the feature points of the 3x3x3 block of tiles around `floor(pos)`: it is at
most `1`, at most every one of the 27 distances, and equal to `1` or to one of them. -/
theorem getWorleyNoise_capped_nearest (sqrtF : ℚ → ℚ) (seed : ℕ) (pos repeat_ : Vec3) :
    getWorleyNoise sqrtF seed pos repeat_ ≤ 1 ∧
      (∀ x y z : ℤ, (-1 ≤ x ∧ x ≤ 1) ∧ (-1 ≤ y ∧ y ≤ 1) ∧ (-1 ≤ z ∧ z ≤ 1) →
        getWorleyNoise sqrtF seed pos repeat_ ≤
          neighbourDistance sqrtF seed pos repeat_ pos.floor x y z) ∧
      (getWorleyNoise sqrtF seed pos repeat_ = 1 ∨
        ∃ x y z : ℤ, ((-1 ≤ x ∧ x ≤ 1) ∧ (-1 ≤ y ∧ y ≤ 1) ∧ (-1 ≤ z ∧ z ≤ 1)) ∧
          getWorleyNoise sqrtF seed pos repeat_ =
            neighbourDistance sqrtF seed pos repeat_ pos.floor x y z) := by
  rw [getWorleyNoise_eq_foldl]
  obtain ⟨h1, h2, h3⟩ := foldl_min_spec
    (fun o : ℤ × ℤ × ℤ => neighbourDistance sqrtF seed pos repeat_ pos.floor o.1 o.2.1 o.2.2)
    neighbourOffsets 1
  refine ⟨h1, ?_, ?_⟩
  · intro x y z hxyz
    exact h2 (x, y, z) ((mem_neighbourOffsets x y z).2 hxyz)
  · rcases h3 with h | ⟨⟨x, y, z⟩, ho, h⟩
    · exact Or.inl h
    · exact Or.inr ⟨x, y, z, (mem_neighbourOffsets x y z).1 ho, h⟩

/-! ### Cellular noise: evaluation at seed 41, repeat (1,2,1) -/

theorem neighbourDistance_eq_sqrt (sqrtF : ℚ → ℚ) (seed : ℕ) (pos repeat_ tile : Vec3)
    (x y z : ℤ) :
    neighbourDistance sqrtF seed pos repeat_ tile x y z =
      sqrtF (neighbourSqDistance seed pos repeat_ tile x y z) := rfl

theorem neighbourSqDistance_nonneg (seed : ℕ) (pos repeat_ tile : Vec3) (x y z : ℤ) :
    0 ≤ neighbourSqDistance seed pos repeat_ tile x y z := by
  simp only [neighbourSqDistance, Vec3.dot]
  exact add_nonneg (add_nonneg (mul_self_nonneg _) (mul_self_nonneg _)) (mul_self_nonneg _)

theorem sqrtOrderOne_id : SqrtOrderOne (fun x => x) := fun _ _ => ⟨Iff.rfl, Iff.rfl⟩

theorem lowbias32_seed41 :
    lowbias32 41 = 1371730420 ∧ lowbias32 1371730420 = 1388479562 ∧
    lowbias32 1388479562 = 965083679 ∧
    lowbias32 42 = 388445122 ∧ lowbias32 388445122 = 1612446537 ∧
    lowbias32 1612446537 = 3775335865 ∧
    lowbias32 43 = 1852637032 ∧ lowbias32 1852637032 = 1438145734 ∧
    lowbias32 1438145734 = 372412579 ∧
    lowbias32 44 = 3429337093 ∧ lowbias32 3429337093 = 3746176474 ∧
    lowbias32 3746176474 = 3978918737 := by decide

set_option maxHeartbeats 1000000 in
theorem neighbourSqDistance_seed41 (x y z : ℤ)
    (h : (-1 ≤ x ∧ x ≤ 1) ∧ (-1 ≤ y ∧ y ≤ 1) ∧ (-1 ≤ z ∧ z ≤ 1)) :
    1 < neighbourSqDistance 41 ⟨0, 1, 1⟩ ⟨1, 2, 1⟩ (Vec3.floor ⟨0, 1, 1⟩) x y z := by
  obtain ⟨⟨hx, hx'⟩, ⟨hy, hy'⟩, ⟨hz, hz'⟩⟩ := h
  obtain ⟨h1, h2, h3, h4, h5, h6, h7, h8, h9, h10, h11, h12⟩ := lowbias32_seed41
  have t0 : Int.toNat 0 = 0 := rfl
  have t1 : Int.toNat 1 = 1 := rfl
  have t2 : Int.toNat 2 = 2 := rfl
  have t3 : Int.toNat 3 = 3 := rfl
  interval_cases x <;> interval_cases y <;> interval_cases z <;>
    norm_num [neighbourSqDistance, featurePoint, neighbourIndex, repeatedNeighbour, wrap, wrapMax,
      glmMod, toUint32, Vec3.add, Vec3.sub, Vec3.dot, Vec3.divScalar, Vec3.floor, uint32Max,
      t0, t1, t2, t3, h1, h2, h3, h4, h5, h6, h7, h8, h9, h10, h11, h12]

theorem neighbourSqDistance_seed41_shifted :
    neighbourSqDistance 41 ⟨1, 3, 2⟩ ⟨1, 2, 1⟩ (Vec3.floor ⟨1, 3, 2⟩) 0 0 0 < 1 := by
  obtain ⟨h1, h2, h3, h4, h5, h6, h7, h8, h9, h10, h11, h12⟩ := lowbias32_seed41
  have t0 : Int.toNat 0 = 0 := rfl
  have t1 : Int.toNat 1 = 1 := rfl
  have t2 : Int.toNat 2 = 2 := rfl
  have t3 : Int.toNat 3 = 3 := rfl
  norm_num [neighbourSqDistance, featurePoint, neighbourIndex, repeatedNeighbour, wrap, wrapMax,
    glmMod, toUint32, Vec3.add, Vec3.sub, Vec3.dot, Vec3.divScalar, Vec3.floor, uint32Max,
    t0, t1, t2, t3, h1, h2, h3, h4, h5, h6, h7, h8, h9, h10, h11, h12]

theorem neighbourDistance_seed41 (sqrtF : ℚ → ℚ) (hs : SqrtOrderOne sqrtF) (x y z : ℤ)
    (h : (-1 ≤ x ∧ x ≤ 1) ∧ (-1 ≤ y ∧ y ≤ 1) ∧ (-1 ≤ z ∧ z ≤ 1)) :
    1 < neighbourDistance sqrtF 41 ⟨0, 1, 1⟩ ⟨1, 2, 1⟩ (Vec3.floor ⟨0, 1, 1⟩) x y z := by
  rw [neighbourDistance_eq_sqrt]
  exact ((hs _ (neighbourSqDistance_nonneg _ _ _ _ _ _ _)).2).2
    (neighbourSqDistance_seed41 x y z h)

theorem getWorleyNoise_seed41 (sqrtF : ℚ → ℚ) (hs : SqrtOrderOne sqrtF) :
    getWorleyNoise sqrtF 41 ⟨0, 1, 1⟩ ⟨1, 2, 1⟩ = 1 :=
  getWorleyNoise_eq_one_of_far sqrtF 41 ⟨0, 1, 1⟩ ⟨1, 2, 1⟩
    (fun x y z h => (neighbourDistance_seed41 sqrtF hs x y z h).le)

theorem getWorleyNoise_seed41_shifted (sqrtF : ℚ → ℚ) (hs : SqrtOrderOne sqrtF) :
    getWorleyNoise sqrtF 41 ⟨1, 3, 2⟩ ⟨1, 2, 1⟩ < 1 := by
  refine lt_of_le_of_lt
    (getWorleyNoise_le_neighbourDistance sqrtF 41 ⟨1, 3, 2⟩ ⟨1, 2, 1⟩ 0 0 0 (by norm_num)) ?_
  rw [neighbourDistance_eq_sqrt]
  exact ((hs _ (neighbourSqDistance_nonneg _ _ _ _ _ _ _)).1).2 neighbourSqDistance_seed41_shifted

/-- C5 (counterexample): for seed 41, `pos = (0,1,1)` and `repeat = (1,2,1)` every one of
the 27 feature points is farther than `1` from `pos`, yet `getWorleyNoise` returns `1`:
the value returned is capped and is not the distance to the nearest feature point. -/
theorem getWorleyNoise_cap_counterexample :
    (∃ f, SqrtOrderOne f) ∧
      ∀ sqrtF, SqrtOrderOne sqrtF →
        getWorleyNoise sqrtF 41 ⟨0, 1, 1⟩ ⟨1, 2, 1⟩ = 1 ∧
          ∀ x y z : ℤ, (-1 ≤ x ∧ x ≤ 1) ∧ (-1 ≤ y ∧ y ≤ 1) ∧ (-1 ≤ z ∧ z ≤ 1) →
            getWorleyNoise sqrtF 41 ⟨0, 1, 1⟩ ⟨1, 2, 1⟩ <
              neighbourDistance sqrtF 41 ⟨0, 1, 1⟩ ⟨1, 2, 1⟩ (Vec3.floor ⟨0, 1, 1⟩) x y z := by
  refine ⟨⟨_, sqrtOrderOne_id⟩, fun sqrtF hs => ⟨getWorleyNoise_seed41 sqrtF hs, ?_⟩⟩
  intro x y z h
  rw [getWorleyNoise_seed41 sqrtF hs]
  exact neighbourDistance_seed41 sqrtF hs x y z h

/-- C3 (failing input): for seed 41 and `repeat = (1,2,1)` the value at `pos = (0,1,1)`
differs from the value at `pos + 1 * repeat = (1,3,2)`: the first is `1`, the second is
below `1`. -/
theorem getWorleyNoise_not_periodic_example :
    (∃ f, SqrtOrderOne f) ∧
      ∀ sqrtF, SqrtOrderOne sqrtF →
        getWorleyNoise sqrtF 41 ⟨0, 1, 1⟩ ⟨1, 2, 1⟩ ≠
          getWorleyNoise sqrtF 41 (Vec3.add ⟨0, 1, 1⟩ (Vec3.scale ⟨1, 2, 1⟩ ((1 : ℤ) : ℚ)))
            ⟨1, 2, 1⟩ := by
  refine ⟨⟨_, sqrtOrderOne_id⟩, fun sqrtF hs => ?_⟩
  have hp : Vec3.add ⟨0, 1, 1⟩ (Vec3.scale ⟨1, 2, 1⟩ ((1 : ℤ) : ℚ)) = ⟨1, 3, 2⟩ := by
    norm_num [Vec3.add, Vec3.scale]
  rw [hp, getWorleyNoise_seed41 sqrtF hs]
  exact (getWorleyNoise_seed41_shifted sqrtF hs).ne'

/-! ### Cellular noise: the range of the wrapped coordinates -/

theorem glmMod_range (x r : ℚ) (hr : 0 < r) : 0 ≤ glmMod x r ∧ glmMod x r < r := by
  unfold glmMod
  have h1 : (⌊x / r⌋ : ℚ) ≤ x / r := Int.floor_le _
  have h2 : x / r < ⌊x / r⌋ + 1 := Int.lt_floor_add_one _
  rw [le_div_iff₀ hr] at h1
  rw [div_lt_iff₀ hr] at h2
  constructor <;> nlinarith

theorem wrap_range (x r : ℚ) (hr : 0 < r) : 0 ≤ wrap x 0 r ∧ wrap x 0 r < r := by
  unfold wrap wrapMax
  simp only [sub_zero, zero_add]
  exact glmMod_range _ r hr

/-- What the code guarantees for the wrapped tile: x lies in `[0, repeat.x)`, y in
`[0, repeat.y)` and z in `[0, repeat.y)`: the bound of the z coordinate is `repeat.y`. -/
theorem repeatedNeighbour_range (neighbour repeat_ : Vec3) (hx : 0 < repeat_.x)
    (hy : 0 < repeat_.y) :
    (0 ≤ (repeatedNeighbour neighbour repeat_).x ∧
        (repeatedNeighbour neighbour repeat_).x < repeat_.x) ∧
      (0 ≤ (repeatedNeighbour neighbour repeat_).y ∧
        (repeatedNeighbour neighbour repeat_).y < repeat_.y) ∧
      (0 ≤ (repeatedNeighbour neighbour repeat_).z ∧
        (repeatedNeighbour neighbour repeat_).z < repeat_.y) :=
  ⟨wrap_range _ _ hx, wrap_range _ _ hy, wrap_range _ _ hy⟩

/-- C6 (failing input): with `repeat = (1,2,1)` the neighbour tile `(0,1,1)` (the tile of
`pos = (0,1,1)` itself) is wrapped to `(0,1,1)`: its z coordinate `1` is not in
`[0, repeat.z) = [0, 1)`, because z is wrapped with `repeat.y = 2`. -/
theorem repeatedNeighbour_z_outside_repeat_z :
    repeatedNeighbour ((Vec3.floor ⟨0, 1, 1⟩).add ⟨0, 0, 0⟩) ⟨1, 2, 1⟩ = ⟨0, 1, 1⟩ ∧
      ¬ (repeatedNeighbour ((Vec3.floor ⟨0, 1, 1⟩).add ⟨0, 0, 0⟩) ⟨1, 2, 1⟩).z <
        (Vec3.mk 1 2 1).z := by
  have h : repeatedNeighbour ((Vec3.floor ⟨0, 1, 1⟩).add ⟨0, 0, 0⟩) ⟨1, 2, 1⟩ = ⟨0, 1, 1⟩ := by
    norm_num [repeatedNeighbour, wrap, wrapMax, glmMod, Vec3.floor, Vec3.add]
  rw [h]
  norm_num

/-! ### Quantisation -/

theorem clamp_eq (x lo hi : ℚ) : clamp x lo hi = min (max x lo) hi := by
  unfold clamp glmMax
  rw [glmMin_eq_min]
  congr 1
  split
  · next h => exact (max_eq_right h.le).symm
  · next h => exact (max_eq_left (not_lt.mp h)).symm

theorem clamp_unit_range (v : ℚ) : 0 ≤ clamp v 0 1 ∧ clamp v 0 1 ≤ 1 := by
  rw [clamp_eq]
  exact ⟨le_min (le_max_right _ _) zero_le_one, min_le_right _ _⟩

theorem clamp_unit_mono {v1 v2 : ℚ} (h : v1 ≤ v2) : clamp v1 0 1 ≤ clamp v2 0 1 := by
  rw [clamp_eq, clamp_eq]
  exact min_le_min (max_le_max h le_rfl) le_rfl

theorem floor_scaled_range (v : ℚ) :
    0 ≤ ⌊clamp v 0 1 * 255.99⌋ ∧ ⌊clamp v 0 1 * 255.99⌋ ≤ 255 := by
  obtain ⟨h0, h1⟩ := clamp_unit_range v
  constructor
  · exact Int.floor_nonneg.mpr (by positivity)
  · have h : ⌊clamp v 0 1 * 255.99⌋ < 256 := by
      rw [Int.floor_lt]
      push_cast
      nlinarith
    omega

theorem unormToByte_eq (v : ℚ) : (unormToByte v : ℤ) = ⌊clamp v 0 1 * 255.99⌋ := by
  obtain ⟨h0, h1⟩ := floor_scaled_range v
  unfold unormToByte
  simp only
  omega

/-- C8: quantisation round trip: `unormToByte(b / 255) = b` for every byte `b`. -/
theorem unormToByte_roundtrip (b : ℕ) (hb : b ≤ 255) : unormToByte ((b : ℚ) / 255) = b := by
  have hq : (b : ℚ) ≤ 255 := by exact_mod_cast hb
  have hq0 : (0 : ℚ) ≤ b := Nat.cast_nonneg b
  have hc : clamp ((b : ℚ) / 255) 0 1 = (b : ℚ) / 255 := by
    rw [clamp_eq, max_eq_left (by positivity), min_eq_left]
    rw [div_le_one (by norm_num)]
    exact hq
  have h := unormToByte_eq ((b : ℚ) / 255)
  rw [hc] at h
  have hf : ⌊(b : ℚ) / 255 * 255.99⌋ = (b : ℤ) := by
    rw [Int.floor_eq_iff]
    push_cast
    constructor <;> norm_num <;> linarith
  rw [hf] at h
  exact_mod_cast h

/-- C8 (witness): the round trip at the byte `128`. -/
theorem unormToByte_roundtrip_witness :
    128 ≤ 255 ∧ unormToByte (((128 : ℕ) : ℚ) / 255) = 128 :=
  ⟨by decide, unormToByte_roundtrip 128 (by decide)⟩

/-! ### The voxel loop -/

theorem foldlM_flatMap {σ β γ : Type} (g : σ → γ → Option σ) (G : β → List γ) (L : List β)
    (s : σ) :
    (L.flatMap G).foldlM g s = L.foldlM (fun s a => (G a).foldlM g s) s := by
  induction L generalizing s with
  | nil => rfl
  | cons a L ih =>
    simp only [List.flatMap_cons, List.foldlM_append, List.foldlM_cons]
    congr 1
    funext s'
    exact ih s'

theorem foldlM_map_option {σ β γ : Type} (g : σ → γ → Option σ) (k : β → γ) (L : List β)
    (s : σ) :
    (L.map k).foldlM g s = L.foldlM (fun s a => g s (k a)) s := by
  induction L generalizing s with
  | nil => rfl
  | cons a L ih =>
    simp only [List.map_cons, List.foldlM_cons]
    congr 1
    funext s'
    exact ih s'

theorem testBit_eq_false_of_ge {x i : ℕ} (hx : x < 2 ^ 32) (hi : 32 ≤ i) :
    x.testBit i = false :=
  Nat.testBit_eq_false_of_lt (lt_of_lt_of_le hx (Nat.pow_le_pow_right (by norm_num) hi))

theorem shiftRight_le_self (x k : ℕ) : x >>> k ≤ x := by
  rw [Nat.shiftRight_eq_div_pow]
  exact Nat.div_le_self _ _

theorem xorshift16_lt {x : ℕ} (hx : x < 2 ^ 32) : x ^^^ (x >>> 16) < 2 ^ 32 :=
  Nat.xor_lt_two_pow hx (lt_of_le_of_lt (shiftRight_le_self _ _) hx)

theorem xorshift15_lt {x : ℕ} (hx : x < 2 ^ 32) : x ^^^ (x >>> 15) < 2 ^ 32 :=
  Nat.xor_lt_two_pow hx (lt_of_le_of_lt (shiftRight_le_self _ _) hx)

theorem xorshift16_involutive {x : ℕ} (hx : x < 2 ^ 32) :
    (x ^^^ (x >>> 16)) ^^^ ((x ^^^ (x >>> 16)) >>> 16) = x := by
  apply Nat.eq_of_testBit_eq
  intro i
  have h : x.testBit (16 + (16 + i)) = false := testBit_eq_false_of_ge hx (by omega)
  simp only [Nat.testBit_xor, Nat.testBit_shiftRight, h]
  cases x.testBit i <;> cases x.testBit (16 + i) <;> rfl

theorem xorshift15_inverse {x : ℕ} (hx : x < 2 ^ 32) :
    (x ^^^ (x >>> 15)) ^^^ ((x ^^^ (x >>> 15)) >>> 15) ^^^ ((x ^^^ (x >>> 15)) >>> 30) = x := by
  apply Nat.eq_of_testBit_eq
  intro i
  have h : x.testBit (15 + (30 + i)) = false := testBit_eq_false_of_ge hx (by omega)
  have e : 15 + (15 + i) = 30 + i := by omega
  simp only [Nat.testBit_xor, Nat.testBit_shiftRight, h, e]
  cases x.testBit i <;> cases x.testBit (15 + i) <;> cases x.testBit (30 + i) <;> rfl

theorem mul_7feb352d_inverse {x : ℕ} (hx : x < 2 ^ 32) :
    (x * 0x7feb352d % 2 ^ 32) * 0x1d69e2a5 % 2 ^ 32 = x := by
  norm_num at hx ⊢
  omega

theorem mul_846ca68b_inverse {x : ℕ} (hx : x < 2 ^ 32) :
    (x * 0x846ca68b % 2 ^ 32) * 0x43021123 % 2 ^ 32 = x := by
  norm_num at hx ⊢
  omega

theorem lowbias32_lt (x : ℕ) : lowbias32 x < 2 ^ 32 := by
  unfold lowbias32
  exact xorshift16_lt (Nat.mod_lt _ (by norm_num))

theorem lowbias32_r_lowbias32 {x : ℕ} (hx : x < 2 ^ 32) : lowbias32_r (lowbias32 x) = x := by
  have h0 : x % 2 ^ 32 = x := Nat.mod_eq_of_lt hx
  have h1 := xorshift16_lt hx
  have h2 : (x ^^^ (x >>> 16)) * 0x7feb352d % 2 ^ 32 < 2 ^ 32 := Nat.mod_lt _ (by norm_num)
  have h3 := xorshift15_lt h2
  have h4 : (((x ^^^ (x >>> 16)) * 0x7feb352d % 2 ^ 32) ^^^
      (((x ^^^ (x >>> 16)) * 0x7feb352d % 2 ^ 32) >>> 15)) * 0x846ca68b % 2 ^ 32 < 2 ^ 32 :=
    Nat.mod_lt _ (by norm_num)
  have h5 := xorshift16_lt h4
  unfold lowbias32_r lowbias32
  simp only [h0]
  rw [Nat.mod_eq_of_lt h5, xorshift16_involutive h4, mul_846ca68b_inverse h3,
    xorshift15_inverse h2, mul_7feb352d_inverse h1, xorshift16_involutive hx]

theorem lowbias32_injective {a b : ℕ} (ha : a < 2 ^ 32) (hb : b < 2 ^ 32)
    (h : lowbias32 a = lowbias32 b) : a = b := by
  rw [← lowbias32_r_lowbias32 ha, ← lowbias32_r_lowbias32 hb, h]

/-- Further random states that `lowbias32` brings back to themselves: three non-zero
fixed points and a cycle of length two. -/
theorem lowbias32_short_cycles :
    lowbias32 0 = 0 ∧ lowbias32 1262433416 = 1262433416 ∧
      lowbias32 2426360582 = 2426360582 ∧ lowbias32 3496737362 = 3496737362 ∧
      lowbias32 160893342 = 357741884 ∧ lowbias32 357741884 = 160893342 := by decide

/-! ### Reseeding -/

theorem pushReseeded_seeds (n : ℕ) (c : ChannelConfig) (randomState : ℕ)
    (configs : List ChannelConfig) :
    (pushReseeded n c randomState configs).1.map (fun c => c.seed) =
      configs.map (fun c => c.seed) ++
        (List.range n).map (fun j => lowbias32^[j + 1] randomState) := by
  induction n generalizing c randomState configs with
  | zero => simp [pushReseeded]
  | succ n ih =>
    rw [pushReseeded, ih, List.range_succ_eq_map]
    simp only [ChannelConfig.reseed, List.map_append, List.map_cons, List.map_nil,
      List.append_assoc, List.singleton_append, List.map_map]
    congr 2

/-- C10 (amended): when `lowbias32` does not bring the random state back to itself in
one, two or three steps, `N` consecutive calls of `reseed` (`2 ≤ N ≤ 4`) assign the seeds
`lowbias32^[1..N](randomState)`, which are pairwise distinct. -/
theorem reseed_seeds_distinct (c : ChannelConfig) (randomState N : ℕ)
    (hr : randomState < 2 ^ 32)
    (h1 : lowbias32 randomState ≠ randomState)
    (h2 : lowbias32 (lowbias32 randomState) ≠ randomState)
    (h3 : lowbias32 (lowbias32 (lowbias32 randomState)) ≠ randomState)
    (hN : 2 ≤ N) (hN' : N ≤ 4) :
    (pushReseeded N c randomState []).1.map (fun c => c.seed) =
        (List.range N).map (fun j => lowbias32^[j + 1] randomState) ∧
      ((pushReseeded N c randomState []).1.map (fun c => c.seed)).Nodup := by
  have hs := pushReseeded_seeds N c randomState []
  rw [List.map_nil, List.nil_append] at hs
  refine ⟨hs, ?_⟩
  rw [hs]
  have b1 := lowbias32_lt randomState
  have b2 := lowbias32_lt (lowbias32 randomState)
  have b3 := lowbias32_lt (lowbias32 (lowbias32 randomState))
  have n12 : lowbias32 randomState ≠ lowbias32 (lowbias32 randomState) :=
    fun h => h1 (lowbias32_injective hr b1 h).symm
  have n13 : lowbias32 randomState ≠ lowbias32 (lowbias32 (lowbias32 randomState)) :=
    fun h => h2 (lowbias32_injective hr b2 h).symm
  have n14 : lowbias32 randomState ≠
      lowbias32 (lowbias32 (lowbias32 (lowbias32 randomState))) :=
    fun h => h3 (lowbias32_injective hr b3 h).symm
  have n23 : lowbias32 (lowbias32 randomState) ≠
      lowbias32 (lowbias32 (lowbias32 randomState)) :=
    fun h => n12 (lowbias32_injective b1 b2 h)
  have n24 : lowbias32 (lowbias32 randomState) ≠
      lowbias32 (lowbias32 (lowbias32 (lowbias32 randomState))) :=
    fun h => n13 (lowbias32_injective b1 b3 h)
  have n34 : lowbias32 (lowbias32 (lowbias32 randomState)) ≠
      lowbias32 (lowbias32 (lowbias32 (lowbias32 randomState))) :=
    fun h => n23 (lowbias32_injective b2 b3 h)
  interval_cases N <;>
    simp [List.range_succ, Function.iterate_succ, n12, n13, n14, n23, n24, n34]

/-- C10 (witness): four reseeds from the random state `1`. -/
theorem reseed_seeds_distinct_witness :
    ((1 : ℕ) < 2 ^ 32 ∧ lowbias32 1 ≠ 1 ∧ lowbias32 (lowbias32 1) ≠ 1 ∧
        lowbias32 (lowbias32 (lowbias32 1)) ≠ 1 ∧ 2 ≤ 4 ∧ 4 ≤ 4) ∧
      ((pushReseeded 4 default 1 []).1.map (fun c => c.seed) =
          (List.range 4).map (fun j => lowbias32^[j + 1] 1) ∧
        ((pushReseeded 4 default 1 []).1.map (fun c => c.seed)).Nodup) :=
  ⟨⟨by decide, by decide, by decide, by decide, by decide, by decide⟩,
    reseed_seeds_distinct default 1 4 (by decide) (by decide) (by decide) (by decide)
      (by decide) (by decide)⟩

/-- C10 (counterexample): from the random state `0`, a fixed point of `lowbias32`, two
consecutive reseeds assign the seeds `0` and `0`. -/
theorem reseed_seeds_equal_counterexample :
    (pushReseeded 2 default 0 []).1.map (fun c => c.seed) = [0, 0] ∧
      ¬ ((pushReseeded 2 default 0 []).1.map (fun c => c.seed)).Nodup := by
  have h : (pushReseeded 2 default 0 []).1.map (fun c => c.seed) = [0, 0] := by
    rw [pushReseeded_seeds]
    decide
  rw [h]
  exact ⟨rfl, by decide⟩

/-! ### The hash is a bijection -/

theorem xorshift15_inv_lt {y : ℕ} (hy : y < 2 ^ 32) :
    y ^^^ (y >>> 15) ^^^ (y >>> 30) < 2 ^ 32 :=
  Nat.xor_lt_two_pow (xorshift15_lt hy) (lt_of_le_of_lt (shiftRight_le_self _ _) hy)

theorem xorshift15_right_inverse {y : ℕ} (hy : y < 2 ^ 32) :
    (y ^^^ (y >>> 15) ^^^ (y >>> 30)) ^^^ ((y ^^^ (y >>> 15) ^^^ (y >>> 30)) >>> 15) = y := by
  apply Nat.eq_of_testBit_eq
  intro i
  have h : y.testBit (30 + (15 + i)) = false := testBit_eq_false_of_ge hy (by omega)
  have e : 15 + (15 + i) = 30 + i := by omega
  simp only [Nat.testBit_xor, Nat.testBit_shiftRight, h, e]
  cases y.testBit i <;> cases y.testBit (15 + i) <;> cases y.testBit (30 + i) <;> rfl

theorem mul_1d69e2a5_inverse {x : ℕ} (hx : x < 2 ^ 32) :
    (x * 0x1d69e2a5 % 2 ^ 32) * 0x7feb352d % 2 ^ 32 = x := by
  norm_num at hx ⊢
  omega

theorem mul_43021123_inverse {x : ℕ} (hx : x < 2 ^ 32) :
    (x * 0x43021123 % 2 ^ 32) * 0x846ca68b % 2 ^ 32 = x := by
  norm_num at hx ⊢
  omega

theorem lowbias32_r_lt (y : ℕ) : lowbias32_r y < 2 ^ 32 := by
  unfold lowbias32_r
  exact xorshift16_lt (Nat.mod_lt _ (by norm_num))

theorem lowbias32_lowbias32_r {y : ℕ} (hy : y < 2 ^ 32) : lowbias32 (lowbias32_r y) = y := by
  have h0 : y % 2 ^ 32 = y := Nat.mod_eq_of_lt hy
  have h1 := xorshift16_lt hy
  have h2 : (y ^^^ (y >>> 16)) * 0x43021123 % 2 ^ 32 < 2 ^ 32 := Nat.mod_lt _ (by norm_num)
  have h3 := xorshift15_inv_lt h2
  have h4 : (((y ^^^ (y >>> 16)) * 0x43021123 % 2 ^ 32) ^^^
      (((y ^^^ (y >>> 16)) * 0x43021123 % 2 ^ 32) >>> 15) ^^^
      (((y ^^^ (y >>> 16)) * 0x43021123 % 2 ^ 32) >>> 30)) * 0x1d69e2a5 % 2 ^ 32 < 2 ^ 32 :=
    Nat.mod_lt _ (by norm_num)
  have h5 := xorshift16_lt h4
  unfold lowbias32 lowbias32_r
  simp only [h0]
  rw [Nat.mod_eq_of_lt h5, xorshift16_involutive h4, mul_1d69e2a5_inverse h3,
    xorshift15_right_inverse h2, mul_43021123_inverse h1, xorshift16_involutive hy]

theorem lowbias32_zero : lowbias32 0 = 0 := by decide

/-- C16: `lowbias32` is a bijection of the 32-bit unsigned integers: it maps them to
32-bit values, is injective and surjective on them, and `lowbias32(x) = 0` exactly for
`x = 0`. -/
theorem lowbias32_bijective :
    (∀ x, lowbias32 x < 2 ^ 32) ∧
      (∀ a b, a < 2 ^ 32 → b < 2 ^ 32 → lowbias32 a = lowbias32 b → a = b) ∧
      (∀ y, y < 2 ^ 32 → ∃ x, x < 2 ^ 32 ∧ lowbias32 x = y) ∧
      (∀ x, x < 2 ^ 32 → (lowbias32 x = 0 ↔ x = 0)) := by
  refine ⟨lowbias32_lt, fun a b ha hb h => lowbias32_injective ha hb h, ?_, ?_⟩
  · intro y hy
    exact ⟨lowbias32_r y, lowbias32_r_lt y, lowbias32_lowbias32_r hy⟩
  · intro x hx
    constructor
    · intro h
      exact lowbias32_injective hx (by norm_num) (h.trans lowbias32_zero.symm)
    · intro h
      rw [h]
      exact lowbias32_zero

/-! ### Cellular noise: the range of the value -/

theorem neighbourDistance_nonneg (sqrtF : ℚ → ℚ) (hs : ∀ x, 0 ≤ x → 0 ≤ sqrtF x) (seed : ℕ)
    (pos repeat_ tile : Vec3) (x y z : ℤ) :
    0 ≤ neighbourDistance sqrtF seed pos repeat_ tile x y z := by
  rw [neighbourDistance_eq_sqrt]
  exact hs _ (neighbourSqDistance_nonneg _ _ _ _ _ _ _)

/-- C17: when the square root of a non-negative number is non-negative, the value
returned by `getWorleyNoise` lies in `[0, 1]` for every seed, position and repeat
vector; it is `1` (the initial value of the running minimum) or one of the 27
distances. -/
theorem getWorleyNoise_range (sqrtF : ℚ → ℚ) (hs : ∀ x, 0 ≤ x → 0 ≤ sqrtF x) (seed : ℕ)
    (pos repeat_ : Vec3) :
    0 ≤ getWorleyNoise sqrtF seed pos repeat_ ∧ getWorleyNoise sqrtF seed pos repeat_ ≤ 1 ∧
      (getWorleyNoise sqrtF seed pos repeat_ = 1 ∨
        ∃ x y z : ℤ, ((-1 ≤ x ∧ x ≤ 1) ∧ (-1 ≤ y ∧ y ≤ 1) ∧ (-1 ≤ z ∧ z ≤ 1)) ∧
          getWorleyNoise sqrtF seed pos repeat_ =
            neighbourDistance sqrtF seed pos repeat_ pos.floor x y z) := by
  rw [getWorleyNoise_eq_foldl]
  obtain ⟨h1, _, h3⟩ := foldl_min_spec
    (fun o : ℤ × ℤ × ℤ => neighbourDistance sqrtF seed pos repeat_ pos.floor o.1 o.2.1 o.2.2)
    neighbourOffsets 1
  refine ⟨?_, h1, ?_⟩
  · rcases h3 with h | ⟨o, _, h⟩
    · rw [h]
      exact zero_le_one
    · rw [h]
      exact neighbourDistance_nonneg sqrtF hs seed pos repeat_ pos.floor o.1 o.2.1 o.2.2
  · rcases h3 with h | ⟨⟨x, y, z⟩, ho, h⟩
    · exact Or.inl h
    · exact Or.inr ⟨x, y, z, (mem_neighbourOffsets x y z).1 ho, h⟩

theorem sqrtFixed_nonneg (x : ℚ) : 0 ≤ sqrtFixed x := by
  unfold sqrtFixed
  positivity

/-- C17 (witness): the range for the fixed-point square root, seed 41, `pos = (0,1,1)`
and `repeat = (1,2,1)`. -/
theorem getWorleyNoise_range_witness :
    (∀ x, 0 ≤ x → 0 ≤ sqrtFixed x) ∧
      (0 ≤ getWorleyNoise sqrtFixed 41 ⟨0, 1, 1⟩ ⟨1, 2, 1⟩ ∧
        getWorleyNoise sqrtFixed 41 ⟨0, 1, 1⟩ ⟨1, 2, 1⟩ ≤ 1 ∧
        (getWorleyNoise sqrtFixed 41 ⟨0, 1, 1⟩ ⟨1, 2, 1⟩ = 1 ∨
          ∃ x y z : ℤ, ((-1 ≤ x ∧ x ≤ 1) ∧ (-1 ≤ y ∧ y ≤ 1) ∧ (-1 ≤ z ∧ z ≤ 1)) ∧
            getWorleyNoise sqrtFixed 41 ⟨0, 1, 1⟩ ⟨1, 2, 1⟩ =
              neighbourDistance sqrtFixed 41 ⟨0, 1, 1⟩ ⟨1, 2, 1⟩ (Vec3.floor ⟨0, 1, 1⟩) x y z)) :=
  ⟨fun x _ => sqrtFixed_nonneg x,
    getWorleyNoise_range sqrtFixed (fun x _ => sqrtFixed_nonneg x) 41 ⟨0, 1, 1⟩ ⟨1, 2, 1⟩⟩

/-! ### Gradient noise: dependence on the seed -/

/-- C18: `getPerlinNoise` depends on the seed only through `seed mod 1000`: two seeds
with the same remainder give the same value, whatever the underlying `perlin` is, so
every seed gives the value of one of the seeds `0..999`. -/
theorem getPerlinNoise_seed_mod (perlin : Vec4 → Vec4 → ℚ) (s1 s2 : ℕ) (pos repeat_ : Vec3)
    (h : s1 % 1000 = s2 % 1000) :
    getPerlinNoise perlin s1 pos repeat_ = getPerlinNoise perlin s2 pos repeat_ ∧
      getPerlinNoise perlin s1 pos repeat_ = getPerlinNoise perlin (s1 % 1000) pos repeat_ ∧
      s1 % 1000 < 1000 := by
  refine ⟨?_, ?_, Nat.mod_lt _ (by norm_num)⟩
  · unfold getPerlinNoise
    rw [h]
  · unfold getPerlinNoise
    rw [Nat.mod_mod]

/-- C18 (witness): the seeds 5 and 1005, for a `perlin` that returns the fourth
coordinate of the position. -/
theorem getPerlinNoise_seed_mod_witness :
    5 % 1000 = 1005 % 1000 ∧
      (getPerlinNoise (fun p _ => p.w) 5 ⟨0, 0, 0⟩ ⟨1, 1, 1⟩ =
          getPerlinNoise (fun p _ => p.w) 1005 ⟨0, 0, 0⟩ ⟨1, 1, 1⟩ ∧
        getPerlinNoise (fun p _ => p.w) 5 ⟨0, 0, 0⟩ ⟨1, 1, 1⟩ =
          getPerlinNoise (fun p _ => p.w) (5 % 1000) ⟨0, 0, 0⟩ ⟨1, 1, 1⟩ ∧
        5 % 1000 < 1000) :=
  ⟨by decide, getPerlinNoise_seed_mod (fun p _ => p.w) 5 1005 ⟨0, 0, 0⟩ ⟨1, 1, 1⟩ (by decide)⟩

/-! ### The channel evaluator -/

theorem clamp_fin_inUnit (q : ℚ) :
    FVal.InUnit (FVal.clamp (FVal.fin q) (FVal.fin 0) (FVal.fin 1)) := by
  by_cases h0 : q < 0
  · have e : FVal.clamp (FVal.fin q) (FVal.fin 0) (FVal.fin 1) = FVal.fin 0 := by
      simp [h0, FVal.clamp, FVal.max, FVal.min, FVal.lt]
    rw [e]
    exact ⟨le_rfl, zero_le_one⟩
  · by_cases h1 : 1 < q
    · have e : FVal.clamp (FVal.fin q) (FVal.fin 0) (FVal.fin 1) = FVal.fin 1 := by
        simp [h0, h1, FVal.clamp, FVal.max, FVal.min, FVal.lt]
      rw [e]
      exact ⟨zero_le_one, le_rfl⟩
    · have e : FVal.clamp (FVal.fin q) (FVal.fin 0) (FVal.fin 1) = FVal.fin q := by
        simp [h0, h1, FVal.clamp, FVal.max, FVal.min, FVal.lt]
      rw [e]
      exact ⟨not_lt.mp h0, not_lt.mp h1⟩

theorem clamp_unit_of_inUnit {v : FVal} (h : FVal.InUnit v) :
    FVal.clamp v (FVal.fin 0) (FVal.fin 1) = v := by
  cases v with
  | fin q =>
    obtain ⟨h0, h1⟩ := h
    simp [FVal.clamp, FVal.max, FVal.min, FVal.lt, not_lt.mpr h0, not_lt.mpr h1]
  | posInf => exact absurd h (fun h => h)
  | negInf => exact absurd h (fun h => h)
  | nan => exact absurd h (fun h => h)

theorem clamp_nan : FVal.clamp FVal.nan (FVal.fin 0) (FVal.fin 1) = FVal.nan := by
  simp [FVal.clamp, FVal.max, FVal.min, FVal.lt]

theorem clamp_inUnit_or_nan (x : FVal) :
    FVal.clamp x (FVal.fin 0) (FVal.fin 1) = FVal.nan ∨
      FVal.InUnit (FVal.clamp x (FVal.fin 0) (FVal.fin 1)) := by
  cases x with
  | fin q => exact Or.inr (clamp_fin_inUnit q)
  | posInf =>
    right
    simp [FVal.clamp, FVal.max, FVal.min, FVal.lt, FVal.InUnit]
  | negInf =>
    right
    have e : FVal.clamp FVal.negInf (FVal.fin 0) (FVal.fin 1) = FVal.fin 0 := by
      simp [FVal.clamp, FVal.max, FVal.min, FVal.lt]
    rw [e]
    exact ⟨le_rfl, zero_le_one⟩
  | nan => exact Or.inl clamp_nan

theorem sub_nan_right (x : FVal) : FVal.sub x FVal.nan = FVal.nan := by
  cases x <;> rfl

theorem linearStep_nan_low (high x : FVal) : linearStep FVal.nan high x = FVal.nan := by
  unfold linearStep
  rw [sub_nan_right, sub_nan_right]
  cases x <;> exact clamp_nan

theorem linearStep_zero_one {x : FVal} (h : x = FVal.nan ∨ FVal.InUnit x) :
    linearStep (FVal.fin 0) (FVal.fin 1) x = x := by
  rcases h with h | h
  · rw [h]
    simp [linearStep, FVal.sub, FVal.add, FVal.neg, FVal.quot, clamp_nan]
  · cases x with
    | fin q =>
      have e : linearStep (FVal.fin 0) (FVal.fin 1) (FVal.fin q) =
          FVal.clamp (FVal.fin q) (FVal.fin 0) (FVal.fin 1) := by
        simp [linearStep, FVal.sub, FVal.add, FVal.neg, FVal.quot, FVal.div]
      rw [e]
      exact clamp_unit_of_inUnit h
    | posInf => exact absurd h (fun h => h)
    | negInf => exact absurd h (fun h => h)
    | nan => exact absurd h (fun h => h)

/-- Two octaves of weights `1` and `-1` with lacunarity `1` whose noise values coincide
end with `noiseSum = 0` and `amplitudeSum = 0`: `fBm` returns NaN. -/
theorem fBm_two_equal_octaves (nf : ℕ → Vec3 → Vec3 → ℚ) (seed : ℕ) (pos rep : Vec3) (f : ℚ)
    (h : nf (lowbias32 seed) (pos.scale f) (rep.scale f) = nf seed (pos.scale f) (rep.scale f)) :
    fBm nf seed pos rep 2 f 1 (-1) = FVal.nan := by
  have t : (2 : ℤ).toNat = 2 := rfl
  simp [fBm, t, fBmLoop, fBmStep, h, FVal.div, clamp_nan]

theorem fBm_one_octave_inUnit (nf : ℕ → Vec3 → Vec3 → ℚ) (seed : ℕ) (pos rep : Vec3)
    (f l p : ℚ) : FVal.InUnit (fBm nf seed pos rep 1 f l p) := by
  have t : (1 : ℤ).toNat = 1 := rfl
  have e : fBm nf seed pos rep 1 f l p =
      FVal.clamp (FVal.fin (nf seed (pos.scale f) (rep.scale f))) (FVal.fin 0) (FVal.fin 1) := by
    simp [fBm, t, fBmLoop, fBmStep, FVal.div]
  rw [e]
  exact clamp_fin_inUnit _

theorem inUnit_ne_nan {v : FVal} (h : FVal.InUnit v) : v ≠ FVal.nan := by
  intro e
  rw [e] at h
  exact h

theorem powSpec_id : PowSpec (fun x _ => x) :=
  ⟨fun _ _ h0 h1 _ => ⟨h0, h1⟩, fun _ _ => rfl, fun _ => rfl⟩

/-- Post-processing (inversion and power curve) keeps a value that is NaN or in `[0, 1]`
NaN or in `[0, 1]`. -/
theorem postprocess_inUnit_or_nan (powF : FVal → ℚ → FVal) (hp : PowSpec powF) (inverted : Bool)
    (p : ℚ) (hpos : 0 < p) (v : FVal) (hv : v = FVal.nan ∨ FVal.InUnit v) :
    powF (if inverted then FVal.sub (FVal.fin 1) v else v) p = FVal.nan ∨
      FVal.InUnit (powF (if inverted then FVal.sub (FVal.fin 1) v else v) p) := by
  have hv' : (if inverted then FVal.sub (FVal.fin 1) v else v) = FVal.nan ∨
      FVal.InUnit (if inverted then FVal.sub (FVal.fin 1) v else v) := by
    cases inverted with
    | false => simpa using hv
    | true =>
      simp only [if_true]
      rcases hv with h | h
      · left
        rw [h]
        rfl
      · right
        cases v with
        | fin q =>
          obtain ⟨h0, h1⟩ := h
          show 0 ≤ 1 + -q ∧ 1 + -q ≤ 1
          constructor <;> linarith
        | posInf => exact absurd h (fun h => h)
        | negInf => exact absurd h (fun h => h)
        | nan => exact absurd h (fun h => h)
  rcases hv' with h | h
  · left
    rw [h]
    exact hp.2.1 p hpos
  · right
    generalize (if inverted then FVal.sub (FVal.fin 1) v else v) = u at h
    cases u with
    | fin q => exact hp.1 q p h.1 h.2 hpos
    | posInf => exact absurd h (fun h => h)
    | negInf => exact absurd h (fun h => h)
    | nan => exact absurd h (fun h => h)

theorem lowbias32_fixed_point : lowbias32 1262433416 = 1262433416 := by decide

/-- With `worleyWeight = 0` and a cellular sum that is a number, the blend channel
returns the value of the gradient channel with the same seed, post-processing and
gradient parameters. -/
theorem getNoise_blend_weight_zero (perlin : Vec4 → Vec4 → ℚ) (sqrtF : ℚ → ℚ)
    (powF : FVal → ℚ → FVal) (blueNoiseTextures : ℤ → VolumeTexture) (c : ChannelConfig)
    (pos : Vec3) (channel : ℤ) (hm : c.mode = Mode.PerlinWorley) (hw : c.worleyWeight = 0)
    (hn : fBm (getWorleyNoise sqrtF) c.seed pos ⟨1, 1, 1⟩ c.worleyOctaveCount c.worleyFrequency
      c.worleyLacunarity c.worleyPersistence ≠ FVal.nan) :
    getNoise perlin sqrtF powF blueNoiseTextures c pos channel =
      getNoise perlin sqrtF powF blueNoiseTextures
        { c with
          mode := Mode.Perlin
          octaveCount := c.perlinOctaveCount
          frequency := c.perlinFrequency
          lacunarity := c.perlinLacunarity
          persistence := c.perlinPersistence } pos channel := by
  have hW := fBm_inUnit_or_nan (getWorleyNoise sqrtF) c.seed pos ⟨1, 1, 1⟩ c.worleyOctaveCount
    c.worleyFrequency c.worleyLacunarity c.worleyPersistence
  have hP := fBm_inUnit_or_nan (getPerlinNoise perlin) c.seed pos ⟨1, 1, 1⟩ c.perlinOctaveCount
    c.perlinFrequency c.perlinLacunarity c.perlinPersistence
  rcases hW with hW | hW
  · exact absurd hW hn
  · generalize hWe : fBm (getWorleyNoise sqrtF) c.seed pos ⟨1, 1, 1⟩ c.worleyOctaveCount
      c.worleyFrequency c.worleyLacunarity c.worleyPersistence = W at hW
    cases W with
    | fin w =>
      have hlow : FVal.mul (FVal.sub (FVal.fin 1) (FVal.sub (FVal.fin 1) (FVal.fin w)))
          (FVal.fin c.worleyWeight) = FVal.fin 0 := by
        simp [FVal.mul, FVal.sub, FVal.add, FVal.neg, hw]
      simp only [getNoise, hm, hWe, hlow]
      rw [linearStep_zero_one hP]
    | posInf => exact absurd hW (fun h => h)
    | negInf => exact absurd hW (fun h => h)
    | nan => exact absurd hW (fun h => h)

theorem getNoise_blendExample (perlin : Vec4 → Vec4 → ℚ) (sqrtF : ℚ → ℚ)
    (powF : FVal → ℚ → FVal) (hp : PowSpec powF) (blueNoiseTextures : ℤ → VolumeTexture)
    (pos : Vec3) (channel : ℤ) :
    getNoise perlin sqrtF powF blueNoiseTextures blendExample pos channel = FVal.nan := by
  have hW : fBm (getWorleyNoise sqrtF) 1262433416 pos ⟨1, 1, 1⟩ 2 1 1 (-1) = FVal.nan :=
    fBm_two_equal_octaves _ _ _ _ _ (by rw [lowbias32_fixed_point])
  have e : getNoise perlin sqrtF powF blueNoiseTextures blendExample pos channel =
      powF (linearStep (FVal.mul (FVal.sub (FVal.fin 1) (FVal.sub (FVal.fin 1)
        (fBm (getWorleyNoise sqrtF) 1262433416 pos ⟨1, 1, 1⟩ 2 1 1 (-1)))) (FVal.fin 0))
        (FVal.fin 1) (fBm (getPerlinNoise perlin) 1262433416 pos ⟨1, 1, 1⟩ 1 1 2 (1 / 2))) 1 := by
    simp [getNoise, blendExample]
  rw [e, hW]
  have hlow : FVal.mul (FVal.sub (FVal.fin 1) (FVal.sub (FVal.fin 1) FVal.nan)) (FVal.fin 0) =
      FVal.nan := rfl
  rw [hlow, linearStep_nan_low]
  exact hp.2.1 1 one_pos

theorem getNoise_perlinExample (perlin : Vec4 → Vec4 → ℚ) (sqrtF : ℚ → ℚ)
    (powF : FVal → ℚ → FVal) (hp : PowSpec powF) (blueNoiseTextures : ℤ → VolumeTexture)
    (pos : Vec3) (channel : ℤ) :
    FVal.InUnit (getNoise perlin sqrtF powF blueNoiseTextures perlinExample pos channel) := by
  have e : getNoise perlin sqrtF powF blueNoiseTextures perlinExample pos channel =
      powF (fBm (getPerlinNoise perlin) 1262433416 pos ⟨1, 1, 1⟩ 1 1 2 (1 / 2)) 1 := by
    simp [getNoise, perlinExample, blendExample]
  rw [e, hp.2.2]
  exact fBm_one_octave_inUnit _ _ _ _ _ _ _

/-- C11 (failing input): for the blend channel `blendExample` (`worleyWeight = 0`, seed
1262433416, two cellular octaves of weights `1` and `-1`) `getNoise` returns NaN at every
position, while the gradient channel `perlinExample` with the same seed, post-processing
and gradient parameters returns a number of `[0, 1]`. -/
theorem getNoise_blend_weight_zero_nan :
    (∃ powF, PowSpec powF) ∧
      (blendExample.mode = Mode.PerlinWorley ∧ blendExample.worleyWeight = 0 ∧
        perlinExample =
          { blendExample with
            mode := Mode.Perlin
            octaveCount := blendExample.perlinOctaveCount
            frequency := blendExample.perlinFrequency
            lacunarity := blendExample.perlinLacunarity
            persistence := blendExample.perlinPersistence }) ∧
      ∀ (perlin : Vec4 → Vec4 → ℚ) (sqrtF : ℚ → ℚ) (powF : FVal → ℚ → FVal)
        (blueNoiseTextures : ℤ → VolumeTexture) (pos : Vec3) (channel : ℤ), PowSpec powF →
        getNoise perlin sqrtF powF blueNoiseTextures blendExample pos channel = FVal.nan ∧
          FVal.InUnit (getNoise perlin sqrtF powF blueNoiseTextures perlinExample pos channel) ∧
          getNoise perlin sqrtF powF blueNoiseTextures blendExample pos channel ≠
            getNoise perlin sqrtF powF blueNoiseTextures perlinExample pos channel := by
  refine ⟨⟨_, powSpec_id⟩, ⟨rfl, rfl, rfl⟩, ?_⟩
  intro perlin sqrtF powF blueNoiseTextures pos channel hp
  have h1 := getNoise_blendExample perlin sqrtF powF hp blueNoiseTextures pos channel
  have h2 := getNoise_perlinExample perlin sqrtF powF hp blueNoiseTextures pos channel
  refine ⟨h1, h2, ?_⟩
  rw [h1]
  exact (inUnit_ne_nan h2).symm

theorem getNoise_nanExample (perlin : Vec4 → Vec4 → ℚ) (sqrtF : ℚ → ℚ)
    (powF : FVal → ℚ → FVal) (hp : PowSpec powF) (blueNoiseTextures : ℤ → VolumeTexture)
    (pos : Vec3) (channel : ℤ) :
    getNoise perlin sqrtF powF blueNoiseTextures nanExample pos channel = FVal.nan := by
  have hP : fBm (getPerlinNoise perlin) 1262433416 pos ⟨1, 1, 1⟩ 2 1 1 (-1) = FVal.nan :=
    fBm_two_equal_octaves _ _ _ _ _ (by rw [lowbias32_fixed_point])
  have e : getNoise perlin sqrtF powF blueNoiseTextures nanExample pos channel =
      powF (fBm (getPerlinNoise perlin) 1262433416 pos ⟨1, 1, 1⟩ 2 1 1 (-1)) 1 := by
    simp [getNoise, nanExample, blendExample]
  rw [e, hP]
  exact hp.2.1 1 one_pos

theorem stepPerlin_range (p r : Vec4) : -1 ≤ stepPerlin p r ∧ stepPerlin p r ≤ 1 := by
  unfold stepPerlin
  split <;> norm_num

theorem getCurlNoise_stepPerlin (sqrtF : ℚ → ℚ) (seed : ℕ) :
    (getCurlNoise stepPerlin sqrtF seed ⟨0, 1 / 2, 0⟩ ⟨1, 1, 1⟩).x =
      500 / sqrtF 2 * (1 / 2) + 1 / 2 := by
  norm_num [getCurlNoise, getPerlinNoiseTriplet, getPerlinNoise, stepPerlin, glmMod, glmMax,
    Vec3.add, Vec3.sub, Vec3.scale, Vec3.divScalar]

theorem getNoise_curlExample (sqrtF : ℚ → ℚ) (powF : FVal → ℚ → FVal) (hp : PowSpec powF)
    (blueNoiseTextures : ℤ → VolumeTexture) (h1 : 1 ≤ sqrtF 2) (h2 : sqrtF 2 ≤ 2) :
    ∃ v : ℚ, 125 < v ∧
      getNoise stepPerlin sqrtF powF blueNoiseTextures curlExample ⟨0, 1 / 2, 0⟩ 0 =
        FVal.fin v := by
  have e : getNoise stepPerlin sqrtF powF blueNoiseTextures curlExample ⟨0, 1 / 2, 0⟩ 0 =
      FVal.fin (getCurlNoise stepPerlin sqrtF 1262433416 ⟨0, 1 / 2, 0⟩ ⟨1, 1, 1⟩).x := by
    have : getNoise stepPerlin sqrtF powF blueNoiseTextures curlExample ⟨0, 1 / 2, 0⟩ 0 =
        powF (FVal.fin (Vec3.get (getCurlNoise stepPerlin sqrtF 1262433416
          (Vec3.scale ⟨0, 1 / 2, 0⟩ 1) ⟨1, 1, 1⟩) 0)) 1 := by
      simp [getNoise, curlExample, blendExample]
    rw [this, hp.2.2]
    simp [Vec3.get, Vec3.scale]
  refine ⟨_, ?_, e⟩
  rw [getCurlNoise_stepPerlin]
  have hpos : (0 : ℚ) < sqrtF 2 := by linarith
  have : (250 : ℚ) ≤ 500 / sqrtF 2 := by
    rw [le_div_iff₀ hpos]
    linarith
  linarith

/-- C12 (counterexample): the gradient channel `nanExample` (two octaves of weights `1`
and `-1`, `powerCurve = 1`) makes `getNoise` return NaN at every position, whatever the
gradient-noise function is; and in Curl mode, for the gradient-noise function
`stepPerlin` (values in `[-1, 1]`), `getNoise` returns a value above `125` at the
position `(0, 1/2, 0)`. -/
theorem getNoise_not_in_unit_counterexample :
    (∃ powF, PowSpec powF) ∧ 0 < nanExample.powerCurve ∧ 0 < curlExample.powerCurve ∧
      (∀ (perlin : Vec4 → Vec4 → ℚ) (sqrtF : ℚ → ℚ) (powF : FVal → ℚ → FVal)
        (blueNoiseTextures : ℤ → VolumeTexture) (pos : Vec3) (channel : ℤ), PowSpec powF →
        ¬ FVal.InUnit (getNoise perlin sqrtF powF blueNoiseTextures nanExample pos channel)) ∧
      (∀ p r, -1 ≤ stepPerlin p r ∧ stepPerlin p r ≤ 1) ∧
      (∀ (sqrtF : ℚ → ℚ) (powF : FVal → ℚ → FVal) (blueNoiseTextures : ℤ → VolumeTexture),
        PowSpec powF → 1 ≤ sqrtF 2 → sqrtF 2 ≤ 2 →
        ¬ FVal.InUnit
          (getNoise stepPerlin sqrtF powF blueNoiseTextures curlExample ⟨0, 1 / 2, 0⟩ 0)) := by
  refine ⟨⟨_, powSpec_id⟩, by norm_num [nanExample, blendExample],
    by norm_num [curlExample, blendExample], ?_, stepPerlin_range, ?_⟩
  · intro perlin sqrtF powF blueNoiseTextures pos channel hp
    rw [getNoise_nanExample perlin sqrtF powF hp]
    exact fun h => h
  · intro sqrtF powF blueNoiseTextures hp h1 h2
    obtain ⟨v, hv, e⟩ := getNoise_curlExample sqrtF powF hp blueNoiseTextures h1 h2
    rw [e]
    intro h
    have : v ≤ 1 := h.2
    linarith

theorem getBlueNoise_range (blueNoiseTextures : ℤ → VolumeTexture)
    (hb : ∀ res, ∀ b ∈ (blueNoiseTextures res).m_data, b ≤ 255) (pos : Vec3) (channel res : ℤ) :
    0 ≤ getBlueNoise blueNoiseTextures pos channel res ∧
      getBlueNoise blueNoiseTextures pos channel res ≤ 1 := by
  unfold getBlueNoise
  simp only
  generalize (blueNoiseTextures res).getIndex _ _ = i
  have hle : (blueNoiseTextures res).m_data.getD i 0 ≤ 255 := by
    rw [List.getD_eq_getElem?_getD]
    cases hi : (blueNoiseTextures res).m_data[i]? with
    | none => simp
    | some b =>
      simp only [Option.getD_some]
      exact hb res b (List.getElem?_mem hi)
  have hq : (((blueNoiseTextures res).m_data.getD i 0 : ℕ) : ℚ) ≤ 255 := by exact_mod_cast hle
  constructor
  · positivity
  · rw [div_le_one (by norm_num)]
    linarith

/-- C12 (amended): for a channel of mode Perlin, Worley, PerlinWorley or BlueNoise (the
last with `zoom ≥ 1`) with `powerCurve > 0` (either value of `inverted`), at every
normalized position of `[0, 1)³`, `getNoise` returns a number of `[0, 1]` or NaN. -/
theorem getNoise_inUnit_or_nan (perlin : Vec4 → Vec4 → ℚ) (sqrtF : ℚ → ℚ)
    (powF : FVal → ℚ → FVal) (blueNoiseTextures : ℤ → VolumeTexture) (c : ChannelConfig)
    (pos : Vec3) (channel : ℤ) (hp : PowSpec powF)
    (hb : ∀ res, ∀ b ∈ (blueNoiseTextures res).m_data, b ≤ 255)
    (hm : c.mode ≠ Mode.Curl) (hc : 0 < c.powerCurve)
    (_hz : c.mode = Mode.BlueNoise → 1 ≤ c.zoom)
    (_hpos : (0 ≤ pos.x ∧ pos.x < 1) ∧ (0 ≤ pos.y ∧ pos.y < 1) ∧ (0 ≤ pos.z ∧ pos.z < 1)) :
    getNoise perlin sqrtF powF blueNoiseTextures c pos channel = FVal.nan ∨
      FVal.InUnit (getNoise perlin sqrtF powF blueNoiseTextures c pos channel) := by
  unfold getNoise
  apply postprocess_inUnit_or_nan powF hp c.inverted c.powerCurve hc
  cases hmode : c.mode with
  | Perlin => exact fBm_inUnit_or_nan _ _ _ _ _ _ _ _
  | Worley => exact fBm_inUnit_or_nan _ _ _ _ _ _ _ _
  | PerlinWorley => exact clamp_inUnit_or_nan _
  | BlueNoise => exact Or.inr (getBlueNoise_range blueNoiseTextures hb _ _ _)
  | Curl => exact absurd hmode hm

/-- C12 (witness): the gradient channel `perlinExample` at the position `(0, 0, 0)`, for
a constant gradient noise, the fixed-point square root, the identity as power function
and an all-zero blue-noise texture. -/
theorem getNoise_inUnit_or_nan_witness :
    (PowSpec (fun x _ => x) ∧
        (∀ res : ℤ, ∀ b ∈ ((fun _ => VolumeTexture.new ⟨1, 1, 1⟩ 4) res).m_data, b ≤ 255) ∧
        perlinExample.mode ≠ Mode.Curl ∧ 0 < perlinExample.powerCurve ∧
        (perlinExample.mode = Mode.BlueNoise → 1 ≤ perlinExample.zoom) ∧
        (((0 : ℚ) ≤ 0 ∧ (0 : ℚ) < 1) ∧ ((0 : ℚ) ≤ 0 ∧ (0 : ℚ) < 1) ∧ ((0 : ℚ) ≤ 0 ∧ (0 : ℚ) < 1))) ∧
      (getNoise (fun _ _ => 0) sqrtFixed (fun x _ => x) (fun _ => VolumeTexture.new ⟨1, 1, 1⟩ 4)
          perlinExample ⟨0, 0, 0⟩ 0 = FVal.nan ∨
        FVal.InUnit (getNoise (fun _ _ => 0) sqrtFixed (fun x _ => x)
          (fun _ => VolumeTexture.new ⟨1, 1, 1⟩ 4) perlinExample ⟨0, 0, 0⟩ 0)) :=
  have hb : ∀ res : ℤ, ∀ b ∈ ((fun _ => VolumeTexture.new ⟨1, 1, 1⟩ 4) res).m_data, b ≤ 255 := by
    intro res b hmem
    simp only [VolumeTexture.new] at hmem
    rw [List.eq_of_mem_replicate hmem]
    norm_num
  have hm : perlinExample.mode ≠ Mode.Curl := by decide
  have hc : 0 < perlinExample.powerCurve := by norm_num [perlinExample, blendExample]
  have hz : perlinExample.mode = Mode.BlueNoise → 1 ≤ perlinExample.zoom := by decide
  have hpos : ((0 : ℚ) ≤ 0 ∧ (0 : ℚ) < 1) ∧ ((0 : ℚ) ≤ 0 ∧ (0 : ℚ) < 1) ∧
      ((0 : ℚ) ≤ 0 ∧ (0 : ℚ) < 1) := by norm_num
  ⟨⟨powSpec_id, hb, hm, hc, hz, hpos⟩,
    getNoise_inUnit_or_nan (fun _ _ => 0) sqrtFixed (fun x _ => x)
      (fun _ => VolumeTexture.new ⟨1, 1, 1⟩ 4) perlinExample ⟨0, 0, 0⟩ 0 powSpec_id hb hm hc hz
      hpos⟩

/-! ### The loader -/

theorem modeMapLookup_unknown (s : String)
    (h : s ∉ ["perlin", "worley", "perlinWorley", "blueNoise", "curl"]) :
    modeMapLookup s = Mode.Perlin := by
  simp only [List.mem_cons, List.mem_singleton, List.not_mem_nil, or_false, not_or] at h
  unfold modeMapLookup
  rw [if_neg h.1, if_neg h.2.1, if_neg h.2.2.1, if_neg h.2.2.2.1, if_neg h.2.2.2.2]

/-- C14 (failing input): for the section `mode:foo`, whose mode string is not a known
name, `loadFromFile` throws nothing and yields a channel configuration of mode Perlin
with the default gradient parameters. -/
theorem loadFromFile_unknown_mode (stoi : String → Option ℤ) (stof : String → Option ℚ)
    (c : ChannelConfig) :
    "foo" ∉ ["perlin", "worley", "perlinWorley", "blueNoise", "curl"] ∧
      c.loadFromFile stoi stof ["mode:foo"] 0 1 =
        Except.ok ({ c with
          mode := Mode.Perlin
          inverted := false
          powerCurve := 1
          octaveCount := 1
          frequency := 10
          lacunarity := 2
          persistence := 0.5 }, 0) :=
  ⟨by decide, rfl⟩

theorem config_load_fiveChannelLines (stoi : String → Option ℤ) (stof : String → Option ℚ)
    (uninitialised : Config) (c0 : ChannelConfig) (name : String) (randomState : ℕ)
    (h : stoi "1" = some 1) :
    (Config.load stoi stof uninitialised c0 name fiveChannelLines randomState).error =
        some (LoadError.configError "Invalid number of channels") ∧
      (Config.load stoi stof uninitialised c0 name fiveChannelLines randomState).config.getChannelCount
        = 5 ∧
      (Config.load stoi stof uninitialised c0 name fiveChannelLines randomState).config.width = 1 ∧
      (Config.load stoi stof uninitialised c0 name fiveChannelLines randomState).config.height = 1 ∧
      (Config.load stoi stof uninitialised c0 name fiveChannelLines randomState).config.depth = 1 := by
  have hs : ∀ config : Config, parseSize stoi config "1x1x1" 1 3 =
      ({ config with width := 1, height := 1, depth := 1 }, none) := by
    intro config
    have e1 : substr "1x1x1" 0 1 = "1" := by decide
    have e2 : substr "1x1x1" (1 + 1) ((3 + 2 ^ 64 - 1 - 1) % 2 ^ 64) = "1" := by decide
    have e3 : substr "1x1x1" (3 + 1) ("1x1x1".toList.length - 3) = "1" := by decide
    simp only [parseSize, e1, e2, e3, h]
  have hE : (channelLoop stoi stof c0 fiveChannelLines 5 5 0 [] randomState).2.2 = none := rfl
  have hL : (channelLoop stoi stof c0 fiveChannelLines 5 5 0 [] randomState).1.length = 5 := rfl
  have e : Config.load stoi stof uninitialised c0 name fiveChannelLines randomState =
      ⟨{ name := name, width := 1, height := 1, depth := 1,
         m_channelConfigs := (channelLoop stoi stof c0 fiveChannelLines 5 5 0 [] randomState).1 },
       (channelLoop stoi stof c0 fiveChannelLines 5 5 0 [] randomState).2.1,
       some (LoadError.configError "Invalid number of channels")⟩ := by
    have f0 : findFirstOf "1x1x1" 'x' = some 1 := by decide
    have f1 : findLastOf "1x1x1" 'x' = some 3 := by decide
    have l0 : fiveChannelLines.getD 0 "" = "1x1x1" := rfl
    have hl : fiveChannelLines.length = 5 := rfl
    have hne : fiveChannelLines.isEmpty = false := rfl
    have hc : ((5 : ℕ) : ℤ) > 4 := by norm_num
    simp only [Config.load, hne, l0, f0, f1, hs, hl, hE, Config.getChannelCount, hL, hc,
      Bool.false_eq_true, if_false, if_true]
  rw [e]
  refine ⟨rfl, ?_, rfl, rfl, rfl⟩
  simp only [Config.getChannelCount, hL]
  norm_num

/-- The sibling path: a section without a `mode` line makes `loadFromFile` throw
`ConfigError("Missing option: mode")`. -/
theorem loadFromFile_missing_mode (stoi : String → Option ℤ) (stof : String → Option ℚ)
    (c : ChannelConfig) :
    c.loadFromFile stoi stof ["inverted:true"] 0 1 =
      Except.error (LoadError.configError "Missing option: mode") := rfl

theorem stoiDigits_one : stoiDigits "1" = some 1 := by decide

/-- C15 (failing input): for a configuration file that declares five channels, the
constructor of `Config` catches its own `ConfigError("Invalid number of channels")` and
returns normally with five channel configurations, and `generateNoiseTexture` builds a
`VolumeTexture` with five channels. -/
theorem generateNoiseTexture_five_channels :
    (∃ stoi : String → Option ℤ, stoi "1" = some 1) ∧
      ∀ (perlin : Vec4 → Vec4 → ℚ) (sqrtF : ℚ → ℚ) (powF : FVal → ℚ → FVal)
        (blueNoiseTextures : ℤ → VolumeTexture) (stoi : String → Option ℤ)
        (stof : String → Option ℚ) (uninitialised : Config) (c0 : ChannelConfig) (name : String)
        (randomState : ℕ), stoi "1" = some 1 →
        (generateNoiseTexture perlin sqrtF powF blueNoiseTextures stoi stof uninitialised c0 name
            fiveChannelLines randomState).error =
          some (LoadError.configError "Invalid number of channels") ∧
        (generateNoiseTexture perlin sqrtF powF blueNoiseTextures stoi stof uninitialised c0 name
            fiveChannelLines randomState).config.getChannelCount = 5 ∧
        (generateNoiseTexture perlin sqrtF powF blueNoiseTextures stoi stof uninitialised c0 name
            fiveChannelLines randomState).texture.m_channels = 5 ∧
        (generateNoiseTexture perlin sqrtF powF blueNoiseTextures stoi stof uninitialised c0 name
            fiveChannelLines randomState).texture.m_size = ⟨1, 1, 1⟩ ∧
        (generateNoiseTexture perlin sqrtF powF blueNoiseTextures stoi stof uninitialised c0 name
            fiveChannelLines randomState).texture.m_data.length = 5 := by
  refine ⟨⟨stoiDigits, stoiDigits_one⟩, ?_⟩
  intro perlin sqrtF powF blueNoiseTextures stoi stof uninitialised c0 name randomState h
  obtain ⟨h1, h2, h3, h4, h5⟩ :=
    config_load_fiveChannelLines stoi stof uninitialised c0 name randomState h
  have t5 : ((5 : ℤ) % 2 ^ 32).toNat = 5 := rfl
  have t1 : ((1 : ℤ) % 2 ^ 32).toNat = 1 := rfl
  simp only [generateNoiseTexture, h1, h2, h3, h4, h5, VolumeTexture.new, List.length_replicate,
    u32, t5, t1]
  exact ⟨trivial, trivial, trivial, trivial, by norm_num⟩

/-! ### Binary32: rounding -/

theorem log2Fuel_spec (fuel n : ℕ) (hn : 1 ≤ n) (hf : n ≤ fuel) :
    2 ^ log2Fuel fuel n ≤ n ∧ n < 2 ^ (log2Fuel fuel n + 1) := by
  induction fuel generalizing n with
  | zero => omega
  | succ fuel ih =>
    rw [log2Fuel]
    split
    · next h2 =>
      obtain ⟨a, b⟩ := ih (n / 2) (by omega) (by omega)
      rw [pow_succ] at b
      rw [pow_succ, pow_succ, pow_succ]
      generalize 2 ^ log2Fuel fuel (n / 2) = P at a b
      omega
    · simp only [pow_zero, zero_add, pow_one]
      omega

theorem natLog2_spec (n : ℕ) (hn : 1 ≤ n) : 2 ^ natLog2 n ≤ n ∧ n < 2 ^ (natLog2 n + 1) :=
  log2Fuel_spec n n hn le_rfl

theorem abs_eq_natAbs_div_den (q : ℚ) : |q| = (q.num.natAbs : ℚ) / (q.den : ℚ) := by
  conv_lhs => rw [← Rat.num_div_den q]
  rw [abs_div, Nat.abs_cast, Nat.cast_natAbs, Int.cast_abs]

theorem floorLog2_spec (q : ℚ) (hq : q ≠ 0) :
    (2 : ℚ) ^ floorLog2 q ≤ |q| ∧ |q| < (2 : ℚ) ^ (floorLog2 q + 1) := by
  have hN : 1 ≤ q.num.natAbs := Nat.one_le_iff_ne_zero.mpr (by simpa using hq)
  have hD : 1 ≤ q.den := q.den_pos
  obtain ⟨a1, a2⟩ := natLog2_spec _ hN
  obtain ⟨b1, b2⟩ := natLog2_spec _ hD
  have a1q : (2 : ℚ) ^ natLog2 q.num.natAbs ≤ (q.num.natAbs : ℚ) := by exact_mod_cast a1
  have a2q : (q.num.natAbs : ℚ) < (2 : ℚ) ^ (natLog2 q.num.natAbs + 1) := by exact_mod_cast a2
  have b1q : (2 : ℚ) ^ natLog2 q.den ≤ (q.den : ℚ) := by exact_mod_cast b1
  have b2q : (q.den : ℚ) < (2 : ℚ) ^ (natLog2 q.den + 1) := by exact_mod_cast b2
  have hDq : (0 : ℚ) < q.den := by exact_mod_cast hD
  have habs := abs_eq_natAbs_div_den q
  have two : (2 : ℚ) ≠ 0 := by norm_num
  have hlow : (2 : ℚ) ^ ((natLog2 q.num.natAbs : ℤ) - (natLog2 q.den : ℤ) - 1) ≤ |q| := by
    rw [habs, le_div_iff₀ hDq, zpow_sub₀ two, zpow_sub₀ two, zpow_natCast, zpow_natCast, zpow_one]
    have hp : (0 : ℚ) < 2 ^ natLog2 q.den := by positivity
    rw [div_div, div_mul_eq_mul_div, div_le_iff₀ (by positivity)]
    rw [pow_succ] at b2q
    nlinarith [a1q, b2q, hp]
  have hup : |q| < (2 : ℚ) ^ ((natLog2 q.num.natAbs : ℤ) - (natLog2 q.den : ℤ) + 1) := by
    rw [habs, div_lt_iff₀ hDq, zpow_add₀ two, zpow_sub₀ two, zpow_natCast, zpow_natCast, zpow_one]
    have hp : (0 : ℚ) < 2 ^ natLog2 q.den := by positivity
    rw [pow_succ] at a2q
    have : (2 : ℚ) ^ natLog2 q.num.natAbs / 2 ^ natLog2 q.den * 2 * (q.den : ℚ) =
        (2 ^ natLog2 q.num.natAbs * 2) * ((q.den : ℚ) / 2 ^ natLog2 q.den) := by
      field_simp
    rw [this]
    have h1 : (1 : ℚ) ≤ (q.den : ℚ) / 2 ^ natLog2 q.den := by
      rw [le_div_iff₀ hp]; linarith
    nlinarith [a2q, h1]
  unfold floorLog2
  simp only
  split
  · next h => exact ⟨h, hup⟩
  · next h =>
    refine ⟨hlow, ?_⟩
    rw [sub_add_cancel]
    exact not_le.mp h

theorem roundHalfEven_intCast (k : ℤ) : roundHalfEven (k : ℚ) = k := by
  unfold roundHalfEven
  simp

theorem roundHalfEven_bounds (t : ℚ) :
    ⌊t⌋ ≤ roundHalfEven t ∧ roundHalfEven t ≤ ⌊t⌋ + 1 := by
  unfold roundHalfEven
  simp only
  split_ifs <;> omega

theorem roundHalfEven_mono {t s : ℚ} (h : t ≤ s) : roundHalfEven t ≤ roundHalfEven s := by
  have hf : ⌊t⌋ ≤ ⌊s⌋ := Int.floor_mono h
  rcases lt_or_eq_of_le hf with hlt | heq
  · have h1 := (roundHalfEven_bounds t).2
    have h2 := (roundHalfEven_bounds s).1
    omega
  · unfold roundHalfEven
    simp only
    rw [heq]
    have hfr : t - (⌊s⌋ : ℚ) ≤ s - (⌊s⌋ : ℚ) := by linarith
    split_ifs <;> first | omega | (exfalso; linarith)

theorem roundHalfEven_le_of_le_intCast {t : ℚ} {k : ℤ} (h : t ≤ k) : roundHalfEven t ≤ k := by
  have := roundHalfEven_mono h
  rwa [roundHalfEven_intCast] at this

theorem le_roundHalfEven_of_intCast_le {t : ℚ} {k : ℤ} (h : (k : ℚ) ≤ t) : k ≤ roundHalfEven t := by
  have := roundHalfEven_mono h
  rwa [roundHalfEven_intCast] at this

theorem ulp_pos (q : ℚ) : (0 : ℚ) < 2 ^ ulpExponent q := by positivity

theorem roundToGrid_zero : roundToGrid 0 = 0 := by
  unfold roundToGrid
  rw [zero_div, ← Int.cast_zero, roundHalfEven_intCast]
  simp

theorem roundToGrid_nonneg {q : ℚ} (hq : 0 ≤ q) : 0 ≤ roundToGrid q := by
  unfold roundToGrid
  have h : (0 : ℤ) ≤ roundHalfEven (q / 2 ^ ulpExponent q) :=
    le_roundHalfEven_of_intCast_le (by rw [Int.cast_zero]; exact div_nonneg hq (ulp_pos q).le)
  have h2 : (0 : ℚ) ≤ (roundHalfEven (q / 2 ^ ulpExponent q) : ℚ) := by exact_mod_cast h
  exact mul_nonneg h2 (ulp_pos q).le

theorem floorLog2_mono {q r : ℚ} (hq : 0 < q) (h : q ≤ r) : floorLog2 q ≤ floorLog2 r := by
  have hr : 0 < r := lt_of_lt_of_le hq h
  obtain ⟨a1, _⟩ := floorLog2_spec q hq.ne'
  obtain ⟨_, b2⟩ := floorLog2_spec r hr.ne'
  rw [abs_of_pos hq] at a1
  rw [abs_of_pos hr] at b2
  have hlt : (2 : ℚ) ^ floorLog2 q < 2 ^ (floorLog2 r + 1) := lt_of_le_of_lt (le_trans a1 h) b2
  have := (zpow_lt_zpow_iff_right₀ (by norm_num : (1 : ℚ) < 2)).mp hlt
  omega

theorem roundToGrid_le_pow {q : ℚ} (hq : 0 < q) :
    roundToGrid q ≤ 2 ^ (max (floorLog2 q) (-126) + 1) := by
  obtain ⟨_, a2⟩ := floorLog2_spec q hq.ne'
  rw [abs_of_pos hq] at a2
  have two : (2 : ℚ) ≠ 0 := by norm_num
  have hE : (2 : ℚ) ^ (max (floorLog2 q) (-126) + 1) =
      ((2 ^ 24 : ℤ) : ℚ) * 2 ^ ulpExponent q := by
    unfold ulpExponent
    rw [show max (floorLog2 q) (-126) + 1 = 24 + (max (floorLog2 q) (-126) - 23) by ring,
      zpow_add₀ two]
    norm_num
  have hle : (2 : ℚ) ^ (floorLog2 q + 1) ≤ 2 ^ (max (floorLog2 q) (-126) + 1) :=
    zpow_le_zpow_right₀ (by norm_num) (by omega)
  have hq2 : q / 2 ^ ulpExponent q ≤ ((2 ^ 24 : ℤ) : ℚ) := by
    rw [div_le_iff₀ (ulp_pos q), ← hE]
    exact (lt_of_lt_of_le a2 hle).le
  have h := roundHalfEven_le_of_le_intCast hq2
  have h2 : (roundHalfEven (q / 2 ^ ulpExponent q) : ℚ) ≤ ((2 ^ 24 : ℤ) : ℚ) := by exact_mod_cast h
  rw [hE]
  unfold roundToGrid
  exact mul_le_mul_of_nonneg_right h2 (ulp_pos q).le

theorem pow_le_roundToGrid {r : ℚ} (hr : 0 < r) (hn : -126 ≤ floorLog2 r) :
    (2 : ℚ) ^ floorLog2 r ≤ roundToGrid r := by
  obtain ⟨a1, _⟩ := floorLog2_spec r hr.ne'
  rw [abs_of_pos hr] at a1
  have two : (2 : ℚ) ≠ 0 := by norm_num
  have hu : ulpExponent r = floorLog2 r - 23 := by
    unfold ulpExponent
    rw [max_eq_left hn]
  have hE : (2 : ℚ) ^ floorLog2 r = ((2 ^ 23 : ℤ) : ℚ) * 2 ^ ulpExponent r := by
    rw [hu]
    conv_lhs => rw [show floorLog2 r = 23 + (floorLog2 r - 23) by ring, zpow_add₀ two]
    norm_num
  have hq2 : ((2 ^ 23 : ℤ) : ℚ) ≤ r / 2 ^ ulpExponent r := by
    rw [le_div_iff₀ (ulp_pos r), ← hE]
    exact a1
  have h := le_roundHalfEven_of_intCast_le hq2
  have h2 : ((2 ^ 23 : ℤ) : ℚ) ≤ (roundHalfEven (r / 2 ^ ulpExponent r) : ℚ) := by exact_mod_cast h
  rw [hE]
  unfold roundToGrid
  exact mul_le_mul_of_nonneg_right h2 (ulp_pos r).le

/-- Rounding to binary32 is monotone on the non-negative numbers. -/
theorem roundToGrid_mono_nonneg {q r : ℚ} (hq : 0 ≤ q) (h : q ≤ r) :
    roundToGrid q ≤ roundToGrid r := by
  rcases eq_or_lt_of_le hq with h0 | hpos
  · rw [← h0, roundToGrid_zero]
    exact roundToGrid_nonneg (le_trans hq h)
  · have hr : 0 < r := lt_of_lt_of_le hpos h
    have hm := floorLog2_mono hpos h
    rcases eq_or_lt_of_le (max_le_max hm (le_refl (-126 : ℤ))) with heq | hlt
    · have hu : ulpExponent q = ulpExponent r := by
        unfold ulpExponent
        rw [heq]
      unfold roundToGrid
      rw [hu]
      have h1 : q / 2 ^ ulpExponent r ≤ r / 2 ^ ulpExponent r :=
        div_le_div_of_nonneg_right h (ulp_pos r).le
      have h2 : (roundHalfEven (q / 2 ^ ulpExponent r) : ℚ) ≤
          (roundHalfEven (r / 2 ^ ulpExponent r) : ℚ) := by
        exact_mod_cast roundHalfEven_mono h1
      exact mul_le_mul_of_nonneg_right h2 (ulp_pos r).le
    · have hn : -126 ≤ floorLog2 r := by
        by_contra hc
        rw [max_eq_right (by omega : floorLog2 r ≤ -126)] at hlt
        have := le_max_right (floorLog2 q) (-126)
        omega
      rw [max_eq_left hn] at hlt
      have h1 := roundToGrid_le_pow hpos
      have h2 := pow_le_roundToGrid hr hn
      have h3 : (2 : ℚ) ^ (max (floorLog2 q) (-126) + 1) ≤ 2 ^ floorLog2 r :=
        zpow_le_zpow_right₀ (by norm_num) (by omega)
      exact le_trans h1 (le_trans h3 h2)

theorem roundToGrid_eq_self_of_int {q : ℚ} {m : ℤ} (h : q / 2 ^ ulpExponent q = m) :
    roundToGrid q = q := by
  unfold roundToGrid
  rw [h, roundHalfEven_intCast, ← h]
  exact div_mul_cancel₀ q (ulp_pos q).ne'

/-- A natural number up to `2^24` is a binary32 number. -/
theorem roundToGrid_natCast (n : ℕ) (hn : n ≤ 2 ^ 24) : roundToGrid (n : ℚ) = n := by
  rcases Nat.eq_zero_or_pos n with h0 | hpos
  · rw [h0, Nat.cast_zero, roundToGrid_zero]
  · have hq : (0 : ℚ) < n := by exact_mod_cast hpos
    obtain ⟨a1, a2⟩ := floorLog2_spec (n : ℚ) hq.ne'
    rw [abs_of_pos hq] at a1 a2
    have one : (1 : ℚ) < 2 := by norm_num
    have two : (2 : ℚ) ≠ 0 := by norm_num
    have hn1 : (1 : ℚ) ≤ n := by exact_mod_cast hpos
    have hnq : (n : ℚ) ≤ 2 ^ (24 : ℤ) := by
      rw [zpow_ofNat]
      exact_mod_cast hn
    have he0 : 0 ≤ floorLog2 (n : ℚ) := by
      have h1 : (2 : ℚ) ^ (0 : ℤ) < 2 ^ (floorLog2 (n : ℚ) + 1) := by
        rw [zpow_zero]
        exact lt_of_le_of_lt hn1 a2
      have := (zpow_lt_zpow_iff_right₀ one).mp h1
      omega
    have he24 : floorLog2 (n : ℚ) ≤ 24 :=
      (zpow_le_zpow_iff_right₀ one).mp (le_trans a1 hnq)
    have hu : ulpExponent (n : ℚ) = floorLog2 (n : ℚ) - 23 := by
      unfold ulpExponent
      rw [max_eq_left (by omega)]
    rcases lt_or_eq_of_le he24 with hlt | heq
    · obtain ⟨k, hk⟩ : ∃ k : ℕ, (k : ℤ) = 23 - floorLog2 (n : ℚ) := ⟨(23 - floorLog2 (n : ℚ)).toNat, by omega⟩
      apply roundToGrid_eq_self_of_int (m := ((n * 2 ^ k : ℕ) : ℤ))
      rw [hu, show floorLog2 (n : ℚ) - 23 = -(k : ℤ) by omega, zpow_neg, zpow_natCast,
        div_inv_eq_mul]
      push_cast
      rfl
    · have hn24 : (n : ℚ) = 2 ^ (24 : ℤ) := by
        rw [heq] at a1
        exact le_antisymm hnq a1
      apply roundToGrid_eq_self_of_int (m := 2 ^ 23)
      rw [hu, heq, hn24]
      norm_num

theorem roundHalfEven_error (t : ℚ) : |(roundHalfEven t : ℚ) - t| ≤ 1 / 2 := by
  have h1 := Int.floor_le t
  have h2 := Int.lt_floor_add_one t
  unfold roundHalfEven
  simp only
  rw [abs_le]
  split_ifs <;> push_cast <;> constructor <;> linarith

/-- The rounded value is within half a unit in the last place of the exact one. -/
theorem roundToGrid_error (q : ℚ) : |roundToGrid q - q| ≤ 2 ^ ulpExponent q / 2 := by
  have hu := ulp_pos q
  have h := roundHalfEven_error (q / 2 ^ ulpExponent q)
  have e : roundToGrid q - q =
      ((roundHalfEven (q / 2 ^ ulpExponent q) : ℚ) - q / 2 ^ ulpExponent q) *
        2 ^ ulpExponent q := by
    unfold roundToGrid
    field_simp
  rw [e, abs_mul, abs_of_pos hu]
  calc |(roundHalfEven (q / 2 ^ ulpExponent q) : ℚ) - q / 2 ^ ulpExponent q| * 2 ^ ulpExponent q
      ≤ 1 / 2 * 2 ^ ulpExponent q := mul_le_mul_of_nonneg_right h hu.le
    _ = 2 ^ ulpExponent q / 2 := by ring

/-- Below `1` the rounded value is within `2^-25` of the exact one. -/
theorem roundToGrid_error_unit {q : ℚ} (h0 : 0 ≤ q) (h1 : q < 1) :
    |roundToGrid q - q| ≤ 1 / 2 ^ 25 := by
  rcases eq_or_lt_of_le h0 with hz | hpos
  · rw [← hz, roundToGrid_zero]
    norm_num
  · obtain ⟨a1, _⟩ := floorLog2_spec q hpos.ne'
    rw [abs_of_pos hpos] at a1
    have hlt : (2 : ℚ) ^ floorLog2 q < 2 ^ (0 : ℤ) := by
      rw [zpow_zero]
      exact lt_of_le_of_lt a1 h1
    have he := (zpow_lt_zpow_iff_right₀ (by norm_num : (1 : ℚ) < 2)).mp hlt
    have hu : ulpExponent q ≤ -24 := by
      unfold ulpExponent
      have := max_le (by omega : floorLog2 q ≤ -1) (by norm_num : (-126 : ℤ) ≤ -1)
      omega
    have hp : (2 : ℚ) ^ ulpExponent q ≤ 2 ^ (-24 : ℤ) :=
      zpow_le_zpow_right₀ (by norm_num) hu
    have e : (2 : ℚ) ^ (-24 : ℤ) / 2 = 1 / 2 ^ 25 := by norm_num
    rw [← e]
    exact le_trans (roundToGrid_error q) (div_le_div_of_nonneg_right hp (by norm_num))

/-! ### Binary32: the square root -/

theorem isqrtBits_spec (k n r : ℕ) (h1 : r * r ≤ n) (h2 : n < (r + 2 ^ k) * (r + 2 ^ k)) :
    isqrtBits k n r * isqrtBits k n r ≤ n ∧
      n < (isqrtBits k n r + 1) * (isqrtBits k n r + 1) := by
  induction k generalizing r with
  | zero =>
    rw [isqrtBits]
    rw [pow_zero] at h2
    exact ⟨h1, h2⟩
  | succ k ih =>
    rw [isqrtBits]
    split
    · next h =>
      apply ih _ h
      rw [pow_succ] at h2
      rw [show r + 2 ^ k + 2 ^ k = r + 2 ^ k * 2 by ring]
      exact h2
    · next h => exact ih r h1 (not_le.mp h)

/-- The function `isqrt` returns the integer square root. -/
theorem isqrt_spec (n : ℕ) : isqrt n * isqrt n ≤ n ∧ n < (isqrt n + 1) * (isqrt n + 1) := by
  apply isqrtBits_spec
  · exact Nat.zero_le n
  · rw [Nat.zero_add, ← pow_add]
    rcases Nat.eq_zero_or_pos n with h0 | hpos
    · rw [h0]
      exact pow_pos (by norm_num) _
    · have h := (natLog2_spec n hpos).2
      refine lt_of_lt_of_le h (Nat.pow_le_pow_right (by norm_num) ?_)
      omega

theorem half_square_bounds (m t : ℚ) (hm : 1 ≤ m) (h1 : m * m ≤ t)
    (h2 : t < (m + 1) * (m + 1)) :
    (m - 1 / 2) * (m - 1 / 2) ≤ t ∧ t ≤ (m + 1 + 1 / 2) * (m + 1 + 1 / 2) := by
  constructor <;> nlinarith

/-- The function `sqrtToGrid` returns a number `r * u` of the binary32 grid (`2^23 ≤ r ≤
2^24`, `u` the spacing) that is nearest to the square root of `q`: the root lies between
`(r - 1/2) * u` and `(r + 1/2) * u`. -/
theorem sqrtToGrid_spec (q : ℚ) (hq : 0 < q) :
    ∃ r : ℕ, sqrtToGrid q = (r : ℚ) * 2 ^ (Int.fdiv (floorLog2 q) 2 - 23) ∧
      2 ^ 23 ≤ r ∧ r ≤ 2 ^ 24 ∧
      (((r : ℚ) - 1 / 2) * 2 ^ (Int.fdiv (floorLog2 q) 2 - 23)) ^ 2 ≤ q ∧
      q ≤ (((r : ℚ) + 1 / 2) * 2 ^ (Int.fdiv (floorLog2 q) 2 - 23)) ^ 2 := by
  obtain ⟨a1, a2⟩ := floorLog2_spec q hq.ne'
  rw [abs_of_pos hq] at a1 a2
  have two : (2 : ℚ) ≠ 0 := by norm_num
  have one : (1 : ℚ) ≤ 2 := by norm_num
  have hE : Int.fdiv (floorLog2 q) 2 = floorLog2 q / 2 := Int.fdiv_eq_ediv _ (by norm_num)
  generalize hu : (2 : ℚ) ^ (Int.fdiv (floorLog2 q) 2 - 23) = u
  have hupos : 0 < u := by rw [← hu]; positivity
  have huu : u * u = 2 ^ (2 * Int.fdiv (floorLog2 q) 2 - 46) := by
    rw [← hu, ← zpow_add₀ two]
    congr 1
    ring
  have huupos : 0 < u * u := mul_pos hupos hupos
  generalize ht : q / (u * u) = t
  have htq : q = t * (u * u) := by rw [← ht]; field_simp
  have ht46 : (2 : ℚ) ^ (46 : ℕ) ≤ t := by
    rw [← ht, le_div_iff₀ huupos, huu, ← zpow_natCast, ← zpow_add₀ two]
    refine le_trans (zpow_le_zpow_right₀ one ?_) a1
    rw [hE]
    push_cast
    omega
  have ht48 : t < (2 : ℚ) ^ (48 : ℕ) := by
    rw [← ht, div_lt_iff₀ huupos, huu, ← zpow_natCast, ← zpow_add₀ two]
    refine lt_of_lt_of_le a2 (zpow_le_zpow_right₀ one ?_)
    rw [hE]
    push_cast
    omega
  have ht0 : 0 ≤ t := le_trans (by positivity) ht46
  have hfl0 : 0 ≤ ⌊t⌋ := Int.floor_nonneg.mpr ht0
  generalize hN : ⌊t⌋.toNat = N
  have hNz : (N : ℤ) = ⌊t⌋ := by rw [← hN]; exact Int.toNat_of_nonneg hfl0
  have hNle : (N : ℚ) ≤ t := by
    have := Int.floor_le t
    rw [← hNz] at this
    exact_mod_cast this
  have hNlt : t < (N : ℚ) + 1 := by
    have := Int.lt_floor_add_one t
    rw [← hNz] at this
    exact_mod_cast this
  have hN46 : 2 ^ 46 ≤ N := by
    have h : ((2 ^ 46 : ℕ) : ℤ) ≤ ⌊t⌋ := by
      rw [Int.le_floor]
      exact_mod_cast ht46
    rw [← hNz] at h
    exact_mod_cast h
  have hN48 : N < 2 ^ 48 := by
    have h : (N : ℚ) < ((2 ^ 48 : ℕ) : ℚ) := lt_of_le_of_lt hNle (by exact_mod_cast ht48)
    exact_mod_cast h
  obtain ⟨s1, s2⟩ := isqrt_spec N
  generalize hm : isqrt N = m at s1 s2
  have hm23 : 2 ^ 23 ≤ m := by
    by_contra hc
    have : m + 1 ≤ 2 ^ 23 := by omega
    have := Nat.mul_le_mul this this
    omega
  have hm24 : m < 2 ^ 24 := by
    by_contra hc
    have : 2 ^ 24 ≤ m := by omega
    have := Nat.mul_le_mul this this
    omega
  have s1q : (m : ℚ) * m ≤ t := le_trans (by exact_mod_cast s1) hNle
  have s2q : t < ((m : ℚ) + 1) * ((m : ℚ) + 1) := by
    have : (N : ℚ) + 1 ≤ ((m : ℚ) + 1) * ((m : ℚ) + 1) := by exact_mod_cast s2
    exact lt_of_lt_of_le hNlt this
  have hmq : (1 : ℚ) ≤ m := by
    have : 1 ≤ m := le_trans (by norm_num) hm23
    exact_mod_cast this
  have key : ∀ r : ℕ, ((r : ℚ) - 1 / 2) * ((r : ℚ) - 1 / 2) ≤ t →
      t ≤ ((r : ℚ) + 1 / 2) * ((r : ℚ) + 1 / 2) → 2 ^ 23 ≤ r → r ≤ 2 ^ 24 →
      sqrtToGrid q = (r : ℚ) * u → ∃ r : ℕ, sqrtToGrid q = (r : ℚ) * u ∧
        2 ^ 23 ≤ r ∧ r ≤ 2 ^ 24 ∧ (((r : ℚ) - 1 / 2) * u) ^ 2 ≤ q ∧
        q ≤ (((r : ℚ) + 1 / 2) * u) ^ 2 := by
    intro r h1 h2 h3 h4 h5
    refine ⟨r, h5, h3, h4, ?_, ?_⟩
    · rw [htq, mul_pow, pow_two, pow_two u]
      exact mul_le_mul_of_nonneg_right h1 huupos.le
    · rw [htq, mul_pow, pow_two, pow_two u]
      exact mul_le_mul_of_nonneg_right h2 huupos.le
  have hdef : sqrtToGrid q =
      (((if t < ((m : ℚ) + 1 / 2) * ((m : ℚ) + 1 / 2) then m
        else if ((m : ℚ) + 1 / 2) * ((m : ℚ) + 1 / 2) < t then m + 1
        else if m % 2 = 0 then m else m + 1 : ℕ) : ℚ)) * u := by
    unfold sqrtToGrid
    simp only
    rw [hu, ht, hN, hm]
  have hm1 : 2 ^ 23 ≤ m + 1 := by omega
  have hm2 : m + 1 ≤ 2 ^ 24 := by omega
  have lo1 : (((m + 1 : ℕ) : ℚ) - 1 / 2) * (((m + 1 : ℕ) : ℚ) - 1 / 2) =
      ((m : ℚ) + 1 / 2) * ((m : ℚ) + 1 / 2) := by
    push_cast
    ring
  have up1 : t ≤ (((m + 1 : ℕ) : ℚ) + 1 / 2) * (((m + 1 : ℕ) : ℚ) + 1 / 2) := by
    push_cast
    exact (half_square_bounds (m : ℚ) t hmq s1q s2q).2
  have lo0 : ((m : ℚ) - 1 / 2) * ((m : ℚ) - 1 / 2) ≤ t :=
    (half_square_bounds (m : ℚ) t hmq s1q s2q).1
  by_cases c1 : t < ((m : ℚ) + 1 / 2) * ((m : ℚ) + 1 / 2)
  · have e : sqrtToGrid q = (m : ℚ) * u := by rw [hdef, if_pos c1]
    exact key m lo0 c1.le hm23 hm24.le e
  · by_cases c2 : ((m : ℚ) + 1 / 2) * ((m : ℚ) + 1 / 2) < t
    · have e : sqrtToGrid q = ((m + 1 : ℕ) : ℚ) * u := by rw [hdef, if_neg c1, if_pos c2]
      exact key (m + 1) (by rw [lo1]; exact c2.le) up1 hm1 hm2 e
    · by_cases c3 : m % 2 = 0
      · have e : sqrtToGrid q = (m : ℚ) * u := by rw [hdef, if_neg c1, if_neg c2, if_pos c3]
        exact key m lo0 (not_lt.mp c2) hm23 hm24.le e
      · have e : sqrtToGrid q = ((m + 1 : ℕ) : ℚ) * u := by
          rw [hdef, if_neg c1, if_neg c2, if_neg c3]
        exact key (m + 1) (by rw [lo1]; exact not_lt.mp c1) up1 hm1 hm2 e

/-! ### Binary32: the positions handed to the evaluator -/

theorem round32_of_le {q : ℚ} (h1 : -maxFloat ≤ roundToGrid q) (h2 : roundToGrid q ≤ maxFloat) :
    round32 q = FVal.fin (roundToGrid q) := by
  unfold round32
  simp only
  rw [if_neg (not_lt.mpr h2), if_neg (not_lt.mpr h1)]

theorem round32_of_unit {q : ℚ} (h1 : 0 ≤ roundToGrid q) (h2 : roundToGrid q ≤ 2 ^ 24) :
    round32 q = FVal.fin (roundToGrid q) := by
  apply round32_of_le
  · have : (0 : ℚ) ≤ maxFloat := by norm_num [maxFloat]
    linarith
  · have : (2 : ℚ) ^ 24 ≤ maxFloat := by norm_num [maxFloat]
    linarith

theorem round32_natCast (n : ℕ) (hn : n ≤ 2 ^ 24) : round32 (n : ℚ) = FVal.fin n := by
  have h := roundToGrid_natCast n hn
  have hq : (n : ℚ) ≤ 2 ^ 24 := by exact_mod_cast hn
  rw [round32_of_unit (by rw [h]; exact Nat.cast_nonneg n) (by rw [h]; exact hq), h]

theorem roundToGrid_below_one : roundToGrid ((2 ^ 24 - 1) / 2 ^ 24) = (2 ^ 24 - 1) / 2 ^ 24 := by
  decide!

/-- The binary32 quotient of two natural numbers `x < w ≤ 2^24`, each converted to
binary32 first, is the binary32 number nearest to `x / w`; it lies in `[0, 1)` and within
`2^-25` of `x / w`. -/
theorem div32_natCast (x w : ℕ) (hw : w ≤ 2 ^ 24) (hx : x < w) :
    FVal.div32 (round32 x) (round32 w) = FVal.fin (roundToGrid ((x : ℚ) / w)) ∧
      0 ≤ roundToGrid ((x : ℚ) / w) ∧ roundToGrid ((x : ℚ) / w) < 1 ∧
      |roundToGrid ((x : ℚ) / w) - (x : ℚ) / w| ≤ 1 / 2 ^ 25 := by
  have hwpos : (0 : ℚ) < w := by exact_mod_cast (by omega : 0 < w)
  have hxw : (x : ℚ) + 1 ≤ w := by exact_mod_cast hx
  have hwq : (w : ℚ) ≤ 2 ^ 24 := by exact_mod_cast hw
  have h0 : (0 : ℚ) ≤ (x : ℚ) / w := by positivity
  have hle : (x : ℚ) / w ≤ (2 ^ 24 - 1) / 2 ^ 24 := by
    rw [div_le_div_iff₀ hwpos (by norm_num)]
    nlinarith
  have hr0 := roundToGrid_nonneg h0
  have hr1 := roundToGrid_mono_nonneg h0 hle
  rw [roundToGrid_below_one] at hr1
  have hlt : roundToGrid ((x : ℚ) / w) < 1 := lt_of_le_of_lt hr1 (by norm_num)
  have hq1 : (x : ℚ) / w < 1 := by
    rw [div_lt_one hwpos]
    linarith
  refine ⟨?_, hr0, hlt, roundToGrid_error_unit h0 hq1⟩
  rw [round32_natCast x (by omega), round32_natCast w hw]
  have hq : FVal.quot (FVal.fin (x : ℚ)) (FVal.fin (w : ℚ)) = FVal.fin ((x : ℚ) / w) := by
    show FVal.div (x : ℚ) (w : ℚ) = _
    unfold FVal.div
    rw [if_neg hwpos.ne']
  unfold FVal.div32
  rw [hq]
  exact round32_of_unit hr0 (le_trans hlt.le (by norm_num))

theorem voxelPosition32_eq (w h d x y z : ℕ) (hw : w ≤ 2 ^ 24) (hh : h ≤ 2 ^ 24)
    (hd : d ≤ 2 ^ 24) (hx : x < w) (hy : y < h) (hz : z < d) :
    voxelPosition32 ⟨w, h, d⟩ x y z =
      ⟨FVal.fin (roundToGrid ((x : ℚ) / w)), FVal.fin (roundToGrid ((y : ℚ) / h)),
        FVal.fin (roundToGrid ((z : ℚ) / d))⟩ := by
  unfold voxelPosition32
  rw [(div32_natCast x w hw hx).1, (div32_natCast y h hh hy).1, (div32_natCast z d hd hz).1]

theorem process32_eq_foldlM_calls (t : VolumeTexture) (f : FVec3 → ℕ → FVal) :
    t.process32 f =
      (processCalls32 t.m_size t.m_channels).foldlM
        (fun st call => (unormToByte32 (f call.1 call.2)).bind (storeByte st))
        { index := 0, data := t.m_data, written := [] } := by
  unfold VolumeTexture.process32 processCalls32
  simp only [foldlM_flatMap, foldlM_map_option]

theorem mem_processCalls32 (size : UVec3) (C : ℕ) (call : FVec3 × ℕ) :
    call ∈ processCalls32 size C ↔
      ∃ z, z < size.z ∧ ∃ y, y < size.y ∧ ∃ x, x < size.x ∧ ∃ c, c < C ∧
        (voxelPosition32 size x y z, c) = call := by
  simp [processCalls32, List.mem_flatMap, List.mem_map, List.mem_range]

/-- C13 (amended): for a grid whose width, height and depth are at most `2^24` and a voxel
`(x, y, z)` inside it, `process` calls the evaluator (for every channel) with the position
whose components are the binary32 numbers nearest to `x/width`, `y/height` and `z/depth`;
the positions of the voxels are the only ones it passes, and each component lies in
`[0, 1)` and within `2^-25` of the exact quotient. -/
theorem process32_positions (w h d C : ℕ) (f : FVec3 → ℕ → FVal) (x y z : ℕ)
    (hw : w ≤ 2 ^ 24) (hh : h ≤ 2 ^ 24) (hd : d ≤ 2 ^ 24)
    (hx : x < w) (hy : y < h) (hz : z < d) :
    (VolumeTexture.new ⟨w, h, d⟩ C).process32 f =
        (processCalls32 ⟨w, h, d⟩ C).foldlM
          (fun st call => (unormToByte32 (f call.1 call.2)).bind (storeByte st))
          { index := 0, data := (VolumeTexture.new ⟨w, h, d⟩ C).m_data, written := [] } ∧
      (∀ c, c < C → (voxelPosition32 ⟨w, h, d⟩ x y z, c) ∈ processCalls32 ⟨w, h, d⟩ C) ∧
      (∀ call ∈ processCalls32 ⟨w, h, d⟩ C, ∃ x1 y1 z1 : ℕ, x1 < w ∧ y1 < h ∧ z1 < d ∧
        call.1 = voxelPosition32 ⟨w, h, d⟩ x1 y1 z1) ∧
      voxelPosition32 ⟨w, h, d⟩ x y z =
        ⟨FVal.fin (roundToGrid ((x : ℚ) / w)), FVal.fin (roundToGrid ((y : ℚ) / h)),
          FVal.fin (roundToGrid ((z : ℚ) / d))⟩ ∧
      (0 ≤ roundToGrid ((x : ℚ) / w) ∧ roundToGrid ((x : ℚ) / w) < 1 ∧
        |roundToGrid ((x : ℚ) / w) - (x : ℚ) / w| ≤ 1 / 2 ^ 25) ∧
      (0 ≤ roundToGrid ((y : ℚ) / h) ∧ roundToGrid ((y : ℚ) / h) < 1 ∧
        |roundToGrid ((y : ℚ) / h) - (y : ℚ) / h| ≤ 1 / 2 ^ 25) ∧
      (0 ≤ roundToGrid ((z : ℚ) / d) ∧ roundToGrid ((z : ℚ) / d) < 1 ∧
        |roundToGrid ((z : ℚ) / d) - (z : ℚ) / d| ≤ 1 / 2 ^ 25) := by
  refine ⟨process32_eq_foldlM_calls _ f, ?_, ?_, voxelPosition32_eq w h d x y z hw hh hd hx hy hz,
    (div32_natCast x w hw hx).2, (div32_natCast y h hh hy).2, (div32_natCast z d hd hz).2⟩
  · intro c hc
    exact (mem_processCalls32 ⟨w, h, d⟩ C _).2 ⟨z, hz, y, hy, x, hx, c, hc, rfl⟩
  · intro call hcall
    obtain ⟨z1, hz1, y1, hy1, x1, hx1, c, _, rfl⟩ := (mem_processCalls32 ⟨w, h, d⟩ C call).1 hcall
    exact ⟨x1, y1, z1, hx1, hy1, hz1, rfl⟩

/-- C13 (witness): the voxel `(1, 0, 1)` of a `3 x 2 x 2` grid with one channel. -/
theorem process32_positions_witness :
    (3 ≤ 2 ^ 24 ∧ 2 ≤ 2 ^ 24 ∧ 2 ≤ 2 ^ 24 ∧ 1 < 3 ∧ 0 < 2 ∧ 1 < 2) ∧
      ((VolumeTexture.new ⟨3, 2, 2⟩ 1).process32 (fun p _ => p.x) =
          (processCalls32 ⟨3, 2, 2⟩ 1).foldlM
            (fun st call =>
              (unormToByte32 ((fun (p : FVec3) (_ : ℕ) => p.x) call.1 call.2)).bind (storeByte st))
            { index := 0, data := (VolumeTexture.new ⟨3, 2, 2⟩ 1).m_data, written := [] } ∧
        (∀ c, c < 1 → (voxelPosition32 ⟨3, 2, 2⟩ 1 0 1, c) ∈ processCalls32 ⟨3, 2, 2⟩ 1) ∧
        (∀ call ∈ processCalls32 ⟨3, 2, 2⟩ 1, ∃ x1 y1 z1 : ℕ, x1 < 3 ∧ y1 < 2 ∧ z1 < 2 ∧
          call.1 = voxelPosition32 ⟨3, 2, 2⟩ x1 y1 z1) ∧
        voxelPosition32 ⟨3, 2, 2⟩ 1 0 1 =
          ⟨FVal.fin (roundToGrid (((1 : ℕ) : ℚ) / (3 : ℕ))),
            FVal.fin (roundToGrid (((0 : ℕ) : ℚ) / (2 : ℕ))),
            FVal.fin (roundToGrid (((1 : ℕ) : ℚ) / (2 : ℕ)))⟩ ∧
        (0 ≤ roundToGrid (((1 : ℕ) : ℚ) / (3 : ℕ)) ∧ roundToGrid (((1 : ℕ) : ℚ) / (3 : ℕ)) < 1 ∧
          |roundToGrid (((1 : ℕ) : ℚ) / (3 : ℕ)) - ((1 : ℕ) : ℚ) / (3 : ℕ)| ≤ 1 / 2 ^ 25) ∧
        (0 ≤ roundToGrid (((0 : ℕ) : ℚ) / (2 : ℕ)) ∧ roundToGrid (((0 : ℕ) : ℚ) / (2 : ℕ)) < 1 ∧
          |roundToGrid (((0 : ℕ) : ℚ) / (2 : ℕ)) - ((0 : ℕ) : ℚ) / (2 : ℕ)| ≤ 1 / 2 ^ 25) ∧
        (0 ≤ roundToGrid (((1 : ℕ) : ℚ) / (2 : ℕ)) ∧
          roundToGrid (((1 : ℕ) : ℚ) / (2 : ℕ)) < 1 ∧
          |roundToGrid (((1 : ℕ) : ℚ) / (2 : ℕ)) - ((1 : ℕ) : ℚ) / (2 : ℕ)| ≤ 1 / 2 ^ 25)) :=
  ⟨by decide, process32_positions 3 2 2 1 (fun p _ => p.x) 1 0 1 (by decide) (by decide)
    (by decide) (by decide) (by decide) (by decide)⟩

/-- C13 (counterexample): in the grid `16777217 x 1 x 1` the width converts to the
binary32 number `16777216`, so the voxel `x = 16777216`, which is inside the grid, is
handed the position `(1, 0, 0)`: its first component is not below `1` and is not
`x / width`. -/
theorem voxelPosition32_counterexample :
    (16777216 < 16777217 ∧ 0 < 1 ∧ 0 < 1) ∧
      round32 ((16777217 : ℕ) : ℚ) = FVal.fin 16777216 ∧
      (voxelPosition32 ⟨16777217, 1, 1⟩ 16777216 0 0, 0) ∈ processCalls32 ⟨16777217, 1, 1⟩ 1 ∧
      voxelPosition32 ⟨16777217, 1, 1⟩ 16777216 0 0 = ⟨FVal.fin 1, FVal.fin 0, FVal.fin 0⟩ ∧
      ((16777216 : ℕ) : ℚ) / (16777217 : ℕ) ≠ 1 ∧ ¬ ((1 : ℚ) < 1) := by
  refine ⟨by decide, by decide!, ?_, by decide!, by norm_num, by norm_num⟩
  exact (mem_processCalls32 ⟨16777217, 1, 1⟩ 1 _).2
    ⟨0, by decide, 0, by decide, 16777216, by decide, 0, by decide, rfl⟩

/-! ### Binary32: quantisation -/

theorem clamp32_fin (q : ℚ) :
    FVal.clamp (FVal.fin q) (FVal.fin 0) (FVal.fin 1) = FVal.fin (clamp q 0 1) := by
  unfold FVal.clamp FVal.max FVal.min clamp glmMax glmMin
  have h10 : ¬ ((1 : ℚ) < 0) := by norm_num
  by_cases h0 : q < 0
  · simp [FVal.lt, h0, h10]
  · by_cases h1 : 1 < q
    · simp [FVal.lt, h0, h1]
    · simp [FVal.lt, h0, h1]

theorem clamp32_le_of_le {v1 v2 : FVal} (h : FVal.le v1 v2 = true) :
    ∃ c1 c2 : ℚ, FVal.clamp v1 (FVal.fin 0) (FVal.fin 1) = FVal.fin c1 ∧
      FVal.clamp v2 (FVal.fin 0) (FVal.fin 1) = FVal.fin c2 ∧ 0 ≤ c1 ∧ c1 ≤ c2 ∧ c2 ≤ 1 := by
  have hinf : FVal.clamp FVal.posInf (FVal.fin 0) (FVal.fin 1) = FVal.fin 1 := by decide!
  have hninf : FVal.clamp FVal.negInf (FVal.fin 0) (FVal.fin 1) = FVal.fin 0 := by decide!
  cases v1 <;> cases v2 <;> simp only [FVal.le, decide_eq_true_eq, Bool.false_eq_true] at h
  · next a b =>
    exact ⟨_, _, clamp32_fin a, clamp32_fin b, (clamp_unit_range a).1, clamp_unit_mono h,
      (clamp_unit_range b).2⟩
  · next a =>
    exact ⟨_, _, clamp32_fin a, hinf, (clamp_unit_range a).1, (clamp_unit_range a).2, le_rfl⟩
  · exact ⟨_, _, hinf, hinf, zero_le_one, le_rfl, le_rfl⟩
  · next b =>
    exact ⟨_, _, hninf, clamp32_fin b, le_rfl, (clamp_unit_range b).1, (clamp_unit_range b).2⟩
  · exact ⟨_, _, hninf, hinf, le_rfl, zero_le_one, le_rfl⟩
  · exact ⟨_, _, hninf, hninf, le_rfl, le_rfl, zero_le_one⟩

theorem round32_scale : round32 255.99 = FVal.fin (16776561 / 65536) := by decide!

theorem roundToGrid_scale : roundToGrid (16776561 / 65536) = 16776561 / 65536 := by decide!

/-- The floored value of `unormToByte` for an argument whose clamp is the number `c` of
`[0, 1]`: it is an integer of `0..255`, and the byte is defined. -/
theorem unormToByte32_of_clamp {v : FVal} {c : ℚ}
    (hc : FVal.clamp v (FVal.fin 0) (FVal.fin 1) = FVal.fin c) (h0 : 0 ≤ c) (h1 : c ≤ 1) :
    FVal.floor32 (FVal.mul32 (FVal.clamp v (FVal.fin 0) (FVal.fin 1)) (round32 255.99)) =
        FVal.fin (⌊roundToGrid (c * (16776561 / 65536))⌋ : ℤ) ∧
      0 ≤ ⌊roundToGrid (c * (16776561 / 65536))⌋ ∧
      ⌊roundToGrid (c * (16776561 / 65536))⌋ ≤ 255 ∧
      unormToByte32 v = some ⌊roundToGrid (c * (16776561 / 65536))⌋.toNat := by
  have hp : (0 : ℚ) ≤ c * (16776561 / 65536) := by positivity
  have hle : c * (16776561 / 65536) ≤ 16776561 / 65536 := by nlinarith
  have hr0 := roundToGrid_nonneg hp
  have hr1 := roundToGrid_mono_nonneg hp hle
  rw [roundToGrid_scale] at hr1
  have hm : FVal.mul32 (FVal.clamp v (FVal.fin 0) (FVal.fin 1)) (round32 255.99) =
      FVal.fin (roundToGrid (c * (16776561 / 65536))) := by
    rw [hc, round32_scale]
    exact round32_of_unit hr0 (le_trans hr1 (by norm_num))
  have hf0 : 0 ≤ ⌊roundToGrid (c * (16776561 / 65536))⌋ := Int.floor_nonneg.mpr hr0
  have hf1 : ⌊roundToGrid (c * (16776561 / 65536))⌋ ≤ 255 := by
    have : ⌊roundToGrid (c * (16776561 / 65536))⌋ < 256 := by
      rw [Int.floor_lt]
      push_cast
      exact lt_of_le_of_lt hr1 (by norm_num)
    omega
  have hfl : FVal.floor32 (FVal.mul32 (FVal.clamp v (FVal.fin 0) (FVal.fin 1))
      (round32 255.99)) = FVal.fin (⌊roundToGrid (c * (16776561 / 65536))⌋ : ℤ) := by
    rw [hm]
    rfl
  refine ⟨hfl, hf0, hf1, ?_⟩
  unfold unormToByte32
  simp only
  rw [hfl]
  unfold FVal.toUint8
  have hq0 : (-1 : ℚ) < ((⌊roundToGrid (c * (16776561 / 65536))⌋ : ℤ) : ℚ) := by
    have : ((0 : ℤ) : ℚ) ≤ ((⌊roundToGrid (c * (16776561 / 65536))⌋ : ℤ) : ℚ) :=
      Int.cast_le.mpr hf0
    simp only [Int.cast_zero] at this
    linarith
  have hq1 : ((⌊roundToGrid (c * (16776561 / 65536))⌋ : ℤ) : ℚ) < 256 := by
    have : ((⌊roundToGrid (c * (16776561 / 65536))⌋ : ℤ) : ℚ) ≤ ((255 : ℤ) : ℚ) :=
      Int.cast_le.mpr hf1
    simp only [Int.cast_ofNat] at this
    linarith
  simp only
  rw [if_pos ⟨hq0, hq1⟩, Int.floor_intCast]

/-- In binary32, for float arguments `v1 <= v2` (so neither is NaN; infinities are
allowed): both bytes are defined, they are the floored values `floor(clamp(v,0,1) *
255.99f)`, the quantisation is monotone, and the bytes are at most `255`. -/
theorem unormToByte32_mono_range (v1 v2 : FVal) (h : FVal.le v1 v2 = true) :
    ∃ b1 b2 : ℕ, unormToByte32 v1 = some b1 ∧ unormToByte32 v2 = some b2 ∧
      FVal.floor32 (FVal.mul32 (FVal.clamp v1 (FVal.fin 0) (FVal.fin 1)) (round32 255.99)) =
        FVal.fin b1 ∧
      FVal.floor32 (FVal.mul32 (FVal.clamp v2 (FVal.fin 0) (FVal.fin 1)) (round32 255.99)) =
        FVal.fin b2 ∧
      b1 ≤ b2 ∧ b2 ≤ 255 := by
  obtain ⟨c1, c2, e1, e2, h0, h12, h1⟩ := clamp32_le_of_le h
  obtain ⟨f1, p1, _, u1⟩ := unormToByte32_of_clamp e1 h0 (le_trans h12 h1)
  obtain ⟨f2, p2, q2, u2⟩ := unormToByte32_of_clamp e2 (le_trans h0 h12) h1
  have hmono : ⌊roundToGrid (c1 * (16776561 / 65536))⌋ ≤ ⌊roundToGrid (c2 * (16776561 / 65536))⌋ :=
    Int.floor_mono (roundToGrid_mono_nonneg (by positivity)
      (mul_le_mul_of_nonneg_right h12 (by norm_num)))
  refine ⟨_, _, u1, u2, ?_, ?_, by omega, by omega⟩
  · rw [f1]
    congr 1
    exact_mod_cast (Int.toNat_of_nonneg p1).symm
  · rw [f2]
    congr 1
    exact_mod_cast (Int.toNat_of_nonneg p2).symm

/-- The end values of the quantisation in binary32, and its values at the infinities. -/
theorem unormToByte32_ends :
    unormToByte32 (FVal.fin 0) = some 0 ∧ unormToByte32 (FVal.fin 1) = some 255 ∧
      unormToByte32 FVal.negInf = some 0 ∧ unormToByte32 FVal.posInf = some 255 := by
  decide!

/-- C9 (failing input): for the argument NaN, `glm::clamp` returns NaN, the floored value
`floor(clamp(v,0,1) * 255.99f)` is NaN and not a number of `0..255`, and the conversion to
`uint8_t` is undefined.  The evaluator `getNoise` returns NaN for the channel
`nanExample`, and `process` hands that value to `unormToByte`. -/
theorem unormToByte32_nan :
    FVal.clamp FVal.nan (FVal.fin 0) (FVal.fin 1) = FVal.nan ∧
      FVal.floor32 (FVal.mul32 (FVal.clamp FVal.nan (FVal.fin 0) (FVal.fin 1))
        (round32 255.99)) = FVal.nan ∧
      unormToByte32 FVal.nan = none ∧
      (VolumeTexture.new ⟨1, 1, 1⟩ 1).process32 (fun _ _ => FVal.nan) = none ∧
      (∃ powF, PowSpec powF) ∧
      ∀ (perlin : Vec4 → Vec4 → ℚ) (sqrtF : ℚ → ℚ) (powF : FVal → ℚ → FVal)
        (blueNoiseTextures : ℤ → VolumeTexture) (pos : Vec3) (channel : ℤ), PowSpec powF →
        unormToByte32 (getNoise perlin sqrtF powF blueNoiseTextures nanExample pos channel) =
          none := by
  refine ⟨by decide!, by decide!, by decide!, Option.isNone_iff_eq_none.mp (by decide!),
    ⟨_, powSpec_id⟩, ?_⟩
  intro perlin sqrtF powF blueNoiseTextures pos channel hp
  rw [getNoise_nanExample perlin sqrtF powF hp blueNoiseTextures pos channel]
  decide!

/-! ### Binary32: fractal summation and cellular noise -/

theorem fBmLoop32_eq (nf : ℕ → FVec3 → FVec3 → FVal) (pos rep : FVec3) (l p f : FVal)
    (seed n k : ℕ) :
    fBmLoop32 nf pos rep l p n
        { amplitude := power32 (FVal.fin 1) p k
          noiseSum := sum32 (fun i => FVal.mul32 (power32 (FVal.fin 1) p i)
            (nf (lowbias32^[i] seed) (pos.scale32 (power32 f l i))
              (rep.scale32 (power32 f l i)))) k
          amplitudeSum := sum32 (power32 (FVal.fin 1) p) k
          frequency := power32 f l k
          seed := lowbias32^[k] seed } =
      { amplitude := power32 (FVal.fin 1) p (k + n)
        noiseSum := sum32 (fun i => FVal.mul32 (power32 (FVal.fin 1) p i)
          (nf (lowbias32^[i] seed) (pos.scale32 (power32 f l i))
            (rep.scale32 (power32 f l i)))) (k + n)
        amplitudeSum := sum32 (power32 (FVal.fin 1) p) (k + n)
        frequency := power32 f l (k + n)
        seed := lowbias32^[k + n] seed } := by
  induction n generalizing k with
  | zero => rfl
  | succ n ih =>
    have hstep : fBmStep32 nf pos rep l p
        { amplitude := power32 (FVal.fin 1) p k
          noiseSum := sum32 (fun i => FVal.mul32 (power32 (FVal.fin 1) p i)
            (nf (lowbias32^[i] seed) (pos.scale32 (power32 f l i))
              (rep.scale32 (power32 f l i)))) k
          amplitudeSum := sum32 (power32 (FVal.fin 1) p) k
          frequency := power32 f l k
          seed := lowbias32^[k] seed } =
        { amplitude := power32 (FVal.fin 1) p (k + 1)
          noiseSum := sum32 (fun i => FVal.mul32 (power32 (FVal.fin 1) p i)
            (nf (lowbias32^[i] seed) (pos.scale32 (power32 f l i))
              (rep.scale32 (power32 f l i)))) (k + 1)
          amplitudeSum := sum32 (power32 (FVal.fin 1) p) (k + 1)
          frequency := power32 f l (k + 1)
          seed := lowbias32^[k + 1] seed } := by
      simp only [fBmStep32, sum32, power32, Function.iterate_succ_apply']
    rw [fBmLoop32, hstep, ih (k + 1), Nat.add_right_comm k 1 n, Nat.add_assoc k n 1]

/-- C2 (amended): `fBm`, computed in binary32 as the program computes it, returns `0` for
a non-positive octave count and otherwise the clamped quotient of the weighted octave sum
by the sum of the weights (not by the octave count), where the weight of octave `i` is
the product `1 * persistence * ... * persistence` (`i` factors), its frequency is
`frequency * lacunarity * ... * lacunarity`, its seed is `lowbias32` applied `i` times,
and the two sums and the products are accumulated in binary32 in the order of the
octaves. -/
theorem fBm32_eq_reference (primitive : ℕ → FVec3 → FVec3 → FVal) (seed : ℕ)
    (pos repeat_ : FVec3) (octaveCount : ℤ) (frequency lacunarity persistence : FVal) :
    fBm32 primitive seed pos repeat_ octaveCount frequency lacunarity persistence =
        fBmReference32 primitive seed pos repeat_ octaveCount frequency lacunarity
          persistence ∧
      (octaveCount ≤ 0 →
        fBm32 primitive seed pos repeat_ octaveCount frequency lacunarity persistence =
          FVal.fin 0) := by
  refine ⟨?_, fun h0 => by unfold fBm32; rw [if_pos h0]⟩
  unfold fBm32 fBmReference32
  split
  · rfl
  · have h := fBmLoop32_eq primitive pos repeat_ lacunarity persistence frequency seed
      octaveCount.toNat 0
    simp only [Nat.zero_add] at h
    exact congrArg (fun st : FBmState32 =>
      FVal.clamp (FVal.div32 st.noiseSum st.amplitudeSum) (FVal.fin 0) (FVal.fin 1)) h

/-- C2 (counterexample): the closed form of the claim over the real numbers is not what
`fBm` returns.  With two octaves of weights `1` and `1/2` and a primitive that is `1` at
the first seed and `0` at the second, the closed form is `1 / 1.5 = 2/3`, which is not a
binary32 number, and `fBm` returns the rounded quotient `11184811 / 2^24`.  With a
primitive that returns `1/2` everywhere, three octaves and persistence `1e30f`, the third
weight overflows to infinity, both sums are infinite and `fBm` returns NaN, while the
closed form `(1/2 + p/2 + p^2/2) / (1 + p + p^2)` is `1/2`. -/
theorem fBm32_counterexample :
    (fBm32 (fun seed _ _ => if seed = 1 then FVal.fin 1 else FVal.fin 0) 1
        ⟨FVal.fin 0, FVal.fin 0, FVal.fin 0⟩ ⟨FVal.fin 1, FVal.fin 1, FVal.fin 1⟩ 2
        (FVal.fin 1) (FVal.fin 1) (FVal.fin (1 / 2)) = FVal.fin (11184811 / 2 ^ 24) ∧
      fBmReference (fun seed _ _ => if seed = 1 then 1 else 0) 1 ⟨0, 0, 0⟩ ⟨1, 1, 1⟩ 2 1 1
        (1 / 2) = FVal.fin (2 / 3) ∧
      (11184811 : ℚ) / 2 ^ 24 ≠ 2 / 3) ∧
    (round32 1e30 = FVal.fin 1000000015047466219876688855040 ∧
      fBm32 (fun _ _ _ => FVal.fin (1 / 2)) 0 ⟨FVal.fin 0, FVal.fin 0, FVal.fin 0⟩
        ⟨FVal.fin 1, FVal.fin 1, FVal.fin 1⟩ 3 (FVal.fin 1) (FVal.fin 1) (round32 1e30) =
        FVal.nan ∧
      fBmReference (fun _ _ _ => 1 / 2) 0 ⟨0, 0, 0⟩ ⟨1, 1, 1⟩ 3 1 1
        1000000015047466219876688855040 = FVal.fin (1 / 2)) := by
  refine ⟨⟨by decide!, by decide!, by norm_num⟩, ⟨by decide!, by decide!, by decide!⟩⟩

end VolumeNoise
